import Mathlib

set_option maxRecDepth 8000

/-!  Verification of the Design Lab interactive feedback system
     (`.agent/skills/design-and-refine/templates/feedback/`:
     `format-utils.ts` and `FeedbackOverlay.tsx`).

     JavaScript strings are modelled as lists of characters (`JSStr`);
     JavaScript numbers as exact rationals (`ℚ`), so `Math.round(x*10)/10`
     becomes an exact floor-based rounding. -/

abbrev JSStr := List Char

def jstr (s : String) : JSStr := s.toList

/-- The JavaScript whitespace class: the characters matched by the regex
class `\s` and stripped by `String.prototype.trim` (space, tab, line
terminators, form/vertical feed, NBSP, the Unicode space separators, and
the BOM). -/
def isJsWs (c : Char) : Bool :=
  c == ' ' || c == '\t' || c == '\n' || c == '\r' ||
  c.toNat == 0xb || c.toNat == 0xc || c.toNat == 0xa0 || c.toNat == 0x1680 ||
  (0x2000 ≤ c.toNat && c.toNat ≤ 0x200a) ||
  c.toNat == 0x2028 || c.toNat == 0x2029 || c.toNat == 0x202f ||
  c.toNat == 0x205f || c.toNat == 0x3000 || c.toNat == 0xfeff

/-- `String.prototype.trim`: whitespace removed from both ends. -/
def jsTrim (s : JSStr) : JSStr :=
  ((s.dropWhile isJsWs).reverse.dropWhile isJsWs).reverse

/-- Fuel-driven scanner behind `splitOnNE` (the fuel only serves
structural recursion; at least one character is consumed per step, so
`length + 1` fuel always suffices and the out-of-fuel arm is never
reached). -/
def splitOnF (c : Char) (sr : List Char) : ℕ → JSStr → List JSStr
  | 0, _ => [[]]
  | _ + 1, [] => [[]]
  | fuel + 1, d :: rest =>
    if d = c ∧ sr.isPrefixOf rest then
      [] :: splitOnF c sr fuel (rest.drop sr.length)
    else
      match splitOnF c sr fuel rest with
      | [] => [[d]]
      | h :: t => (d :: h) :: t

/-- `String.prototype.split` with a non-empty literal separator
`sep = c :: sr`, as JavaScript performs it: scan left to right, cut at
each occurrence of the separator.  The result is always non-empty. -/
def splitOnNE (c : Char) (sr : List Char) (s : JSStr) : List JSStr :=
  splitOnF c sr (s.length + 1) s

/-- Splitting on a single-character separator, structurally. -/
def splitChar (c : Char) : JSStr → List JSStr
  | [] => [[]]
  | d :: rest =>
    if d = c then [] :: splitChar c rest
    else
      match splitChar c rest with
      | [] => [[d]]
      | h :: t => (d :: h) :: t

theorem splitOnF_single (c : Char) :
    ∀ (fuel : ℕ) (s : JSStr), s.length < fuel → splitOnF c [] fuel s = splitChar c s := by
  intro fuel
  induction fuel with
  | zero => intro s hs; omega
  | succ fuel ih =>
    intro s hs
    cases s with
    | nil => rfl
    | cons d rest =>
      rw [splitOnF, splitChar]
      simp only [List.isPrefixOf, and_true, List.length_nil, List.drop_zero]
      by_cases hd : d = c
      · rw [if_pos hd, if_pos hd, ih rest (by simpa using hs)]
      · rw [if_neg hd, if_neg hd, ih rest (by simpa using hs)]

/-- On a one-character separator `splitOnNE` is the plain structural
splitter. -/
theorem splitOnNE_single (c : Char) (s : JSStr) :
    splitOnNE c [] s = splitChar c s :=
  splitOnF_single c (s.length + 1) s (by omega)

/-- Splitting on the regex `\s+`, with the empty fragments that JavaScript
yields at the ends already removed (the source immediately filters them
out with the `cls &&` / truthiness step, so the composite is embedded).
Accumulates the current (reversed) token. -/
def splitWsAux (cur : JSStr) : JSStr → List JSStr
  | [] => if cur = [] then [] else [cur.reverse]
  | c :: rest =>
    if isJsWs c then
      if cur = [] then splitWsAux [] rest else cur.reverse :: splitWsAux [] rest
    else
      splitWsAux (c :: cur) rest

/-- The non-empty whitespace-separated tokens of a string. -/
def splitWs (s : JSStr) : List JSStr := splitWsAux [] s

/-- The decimal digit characters. -/
def digitChar : ℕ → Char
  | 0 => '0' | 1 => '1' | 2 => '2' | 3 => '3' | 4 => '4'
  | 5 => '5' | 6 => '6' | 7 => '7' | 8 => '8' | _ => '9'

/-- Fuel-driven decimal writer (`n + 1` fuel always suffices, since the
quotient strictly shrinks; the out-of-fuel arm is never reached). -/
def natDigitsF : ℕ → ℕ → JSStr
  | 0, _ => []
  | fuel + 1, n =>
    if n < 10 then [digitChar n]
    else natDigitsF fuel (n / 10) ++ [digitChar (n % 10)]

/-- Decimal representation of a natural number, as JavaScript's number to
string conversion produces it for the non-negative integers used here. -/
def natDigits (n : ℕ) : JSStr := natDigitsF (n + 1) n

/-- ASCII letters, as matched case-insensitively by `[a-z]` under the `i`
flag. -/
def isAsciiLetter (c : Char) : Bool :=
  ('a' ≤ c && c ≤ 'z') || ('A' ≤ c && c ≤ 'Z')

/-- ASCII digits `[0-9]`. -/
def isAsciiDigit (c : Char) : Bool := '0' ≤ c && c ≤ '9'

/-- The class `[a-z0-9]` under the `i` flag. -/
def isAlnum (c : Char) : Bool := isAsciiLetter c || isAsciiDigit c

/-- ASCII-only case folding, as `toLowerCase` acts on the class names and
tag names considered here. -/
def toLowerJS (s : JSStr) : JSStr := s.map Char.toLower

/-- The library prefixes of `CSS_IN_JS_PATTERN`
(`/^(css|sc|emotion|styled|chakra|mui|ant)-[a-z0-9]+$/i`). -/
def cssLibPrefixes : List JSStr :=
  [jstr "css", jstr "sc", jstr "emotion", jstr "styled", jstr "chakra",
   jstr "mui", jstr "ant"]

/-- Test of `/^(css|sc|emotion|styled|chakra|mui|ant)-[a-z0-9]+$/i`: after
ASCII case folding, a library prefix, a dash, then one or more
alphanumerics to the end. -/
def cssInJsTest (s : JSStr) : Bool :=
  let l := toLowerJS s
  cssLibPrefixes.any fun p =>
    (p ++ ['-']).isPrefixOf l &&
    (let rest := l.drop (p.length + 1)
     rest ≠ [] && rest.all isAlnum)

/-- Test of `HASH_SUFFIX_PATTERN = /_[a-z0-9]{5,}$/i`: somewhere in the
string an underscore followed by at least five alphanumerics running to
the end. -/
def hashSuffixTest : JSStr → Bool
  | [] => false
  | c :: rest =>
    (c == '_' && rest.length ≥ 5 && rest.all isAlnum) || hashSuffixTest rest

/-- Test of `/^[a-z]{1,3}[0-9]{4,}$/i`: one to three letters then four or
more digits (the maximal initial letter run is the only candidate the
regex backtracking can accept). -/
def shortAlphaNumTest (s : JSStr) : Bool :=
  let letters := s.takeWhile isAsciiLetter
  let rest := s.drop letters.length
  1 ≤ letters.length && letters.length ≤ 3 &&
  rest.length ≥ 4 && rest.all isAsciiDigit

/-- `isCssInJsClass` from FeedbackOverlay.tsx: any of the three generated
class-name patterns matches. -/
def isCssInJsClass (className : JSStr) : Bool :=
  cssInJsTest className || hashSuffixTest className || shortAlphaNumTest className

/-- `filterClasses` from FeedbackOverlay.tsx: split on whitespace, drop
empty and generated tokens, rejoin with single spaces (the `!classNames`
guard returns the empty string). -/
def filterClasses (classNames : JSStr) : JSStr :=
  if classNames = [] then []
  else List.intercalate [' '] ((splitWs classNames).filter fun cls => ! isCssInJsClass cls)

theorem splitWsAux_nonWsToken (cur : JSStr) (tok : JSStr) (rest : JSStr)
    (h : ∀ c ∈ tok, isJsWs c = false) :
    splitWsAux cur (tok ++ rest) = splitWsAux (tok.reverse ++ cur) rest := by
  induction tok generalizing cur with
  | nil => simp
  | cons c tok ih =>
    have hc : isJsWs c = false := h c (by simp)
    simp only [List.cons_append, splitWsAux, hc, Bool.false_eq_true, if_false,
      List.reverse_cons, List.append_assoc, List.singleton_append]
    exact ih (c :: cur) (fun d hd => h d (by simp [hd]))

theorem splitWs_intercalate (toks : List JSStr)
    (hne : ∀ t ∈ toks, t ≠ [])
    (hws : ∀ t ∈ toks, ∀ c ∈ t, isJsWs c = false) :
    splitWs (List.intercalate [' '] toks) = toks := by
  induction toks with
  | nil => simp [splitWs, List.intercalate, splitWsAux]
  | cons t toks ih =>
    cases toks with
    | nil =>
      have ht : t ≠ [] := hne t (by simp)
      have h1 : List.intercalate [' '] [t] = t := by simp [List.intercalate]
      have h2 := splitWsAux_nonWsToken [] t [] (hws t (by simp))
      simp only [List.append_nil] at h2
      rw [h1, splitWs, h2, splitWsAux]
      simp [ht]
    | cons u toks' =>
      have ht : t ≠ [] := hne t (by simp)
      have hinter : List.intercalate [' '] (t :: u :: toks') =
          t ++ (' ' :: List.intercalate [' '] (u :: toks')) := by
        simp [List.intercalate, List.intersperse]
      rw [hinter, splitWs,
        splitWsAux_nonWsToken [] t (' ' :: List.intercalate [' '] (u :: toks'))
          (hws t (by simp))]
      simp only [List.append_nil]
      simp only [splitWsAux, show isJsWs ' ' = true from by decide, if_true,
        List.reverse_eq_nil_iff, List.reverse_reverse]
      rw [if_neg ht]
      exact congrArg _
        (ih (fun x hx => hne x (by simp [hx])) (fun x hx => hws x (by simp [hx])))

theorem splitWsAux_sound (s : JSStr) : ∀ cur : JSStr, (∀ c ∈ cur, isJsWs c = false) →
    ∀ t ∈ splitWsAux cur s, t ≠ [] ∧ ∀ c ∈ t, isJsWs c = false := by
  induction s with
  | nil =>
    intro cur hcur t ht
    by_cases h : cur = []
    · simp [splitWsAux, h] at ht
    · simp only [splitWsAux, if_neg h, List.mem_singleton] at ht
      subst ht
      exact ⟨by simpa using h, fun c hc => hcur c (by simpa using hc)⟩
  | cons c rest ih =>
    intro cur hcur t ht
    by_cases hw : isJsWs c
    · by_cases h : cur = []
      · simp only [splitWsAux, hw, if_true, if_pos h] at ht
        exact ih [] (by simp) t ht
      · simp only [splitWsAux, hw, if_true, if_neg h, List.mem_cons] at ht
        rcases ht with ht | ht
        · subst ht
          exact ⟨by simpa using h, fun d hd => hcur d (by simpa using hd)⟩
        · exact ih [] (by simp) t ht
    · simp only [splitWsAux, hw, if_false] at ht
      refine ih (c :: cur) ?_ t ht
      intro d hd
      rcases List.mem_cons.mp hd with h1 | h1
      · subst h1; simpa using hw
      · exact hcur d h1

theorem splitWs_sound (s : JSStr) :
    ∀ t ∈ splitWs s, t ≠ [] ∧ ∀ c ∈ t, isJsWs c = false :=
  splitWsAux_sound s [] (by simp)

/-- Splitting the joined filtered tokens recovers them unchanged. -/
theorem splitWs_filterClasses (s : JSStr) (hs : s ≠ []) :
    splitWs (filterClasses s) =
      (splitWs s).filter (fun cls => ! isCssInJsClass cls) := by
  rw [filterClasses, if_neg hs]
  exact splitWs_intercalate _
    (fun t ht => (splitWs_sound s t (List.mem_of_mem_filter ht)).1)
    (fun t ht => (splitWs_sound s t (List.mem_of_mem_filter ht)).2)

/-- C7: `filterClasses` is idempotent — for every input string `s`,
`filterClasses (filterClasses s) = filterClasses s` — and the empty input
string yields the empty output string. -/
theorem filterClasses_idempotent (s : JSStr) :
    filterClasses (filterClasses s) = filterClasses s ∧ filterClasses [] = [] := by
  refine ⟨?_, rfl⟩
  by_cases hs : s = []
  · subst hs; rfl
  · have key : filterClasses s = List.intercalate [' ']
        ((splitWs s).filter (fun cls => ! isCssInJsClass cls)) := by
      rw [filterClasses, if_neg hs]
    by_cases hr : filterClasses s = []
    · rw [hr]; rfl
    · conv_lhs => rw [filterClasses, if_neg hr]
      rw [splitWs_filterClasses s hs, List.filter_filter, key]
      simp

/-! ## Data model (types.ts / the inlined types of FeedbackOverlay.tsx) -/

/-- `VariantId`: the union type of the six recognized variant letters. -/
inductive VariantId
  | A | B | C | D | E | F
deriving DecidableEq, Repr

/-- The one-letter string of a variant id. -/
def VariantId.str : VariantId → JSStr
  | .A => ['A'] | .B => ['B'] | .C => ['C'] | .D => ['D'] | .E => ['E'] | .F => ['F']

/-- Position in the alphabetical (`localeCompare`) order of the letters. -/
def VariantId.idx : VariantId → ℕ
  | .A => 0 | .B => 1 | .C => 2 | .D => 3 | .E => 4 | .F => 5

structure ElementIdentifier where
  selector : JSStr
  readablePath : JSStr
  tagName : JSStr
  textContent : JSStr
  className : JSStr
  attributes : List (JSStr × JSStr)
deriving DecidableEq, Repr

structure Coordinates where
  x : ℚ
  y : ℚ
deriving DecidableEq, Repr

structure Comment where
  id : JSStr
  variant : VariantId
  element : ElementIdentifier
  coordinates : Coordinates
  text : JSStr
  timestamp : ℤ
deriving DecidableEq, Repr

/-! ## validateFeedback (format-utils.ts, lines 265-283) -/

structure ValidationResult where
  valid : Bool
  errors : List JSStr
deriving DecidableEq, Repr

def noCommentsError : JSStr := jstr "Please add at least one comment to an element."

def noOverallError : JSStr := jstr "Please provide an overall direction for the design."

/-- `validateFeedback`: one error per failed condition, `valid` true iff
no error was pushed. -/
def validateFeedback (comments : List Comment) (overall : JSStr) : ValidationResult :=
  let errors :=
    (if comments.length = 0 then [noCommentsError] else []) ++
    (if jsTrim overall = [] then [noOverallError] else [])
  { valid := errors.length = 0, errors := errors }

/-- C6: `validateFeedback` returns a non-empty error list exactly when the
comment list is empty and/or the overall text is empty after trimming,
with one error per failed condition and `valid` true iff the error list is
empty; `validate([], "")` has exactly two errors, `validate([c], "")`
exactly one, and `validate([c], "direction")` none. -/
theorem validateFeedback_spec :
    (∀ (comments : List Comment) (overall : JSStr),
      ((validateFeedback comments overall).errors ≠ [] ↔
        comments = [] ∨ jsTrim overall = []) ∧
      ((validateFeedback comments overall).valid = true ↔
        (validateFeedback comments overall).errors = []) ∧
      (validateFeedback comments overall).errors.length =
        (if comments = [] then 1 else 0) + (if jsTrim overall = [] then 1 else 0)) ∧
    (validateFeedback [] (jstr "")).errors.length = 2 ∧
    (∀ c : Comment, (validateFeedback [c] (jstr "")).errors.length = 1 ∧
      (validateFeedback [c] (jstr "direction")).errors = []) := by
  refine ⟨fun comments overall => ?_, by decide, fun c => ?_⟩
  · by_cases h1 : comments = [] <;> by_cases h2 : jsTrim overall = [] <;>
      simp [validateFeedback, h1, h2, List.length_eq_zero]
  · constructor
    · simp [validateFeedback, show jsTrim (jstr "") = [] from by decide]
    · simp [validateFeedback, show jsTrim (jstr "direction") ≠ [] from by decide]

/-! ## groupByVariant (format-utils.ts lines 14-27; also inlined in
FeedbackOverlay.tsx lines 372-380).  The JavaScript `Map` is embedded as
an insertion-ordered association list (`mapGet`/`mapSet`), and the
`sort(([a], [b]) => a.localeCompare(b))` as an insertion sort on the
variant letters — on these distinct single-letter keys every
comparator-consistent sort produces the same, unique ordered array. -/

def mapGet (m : List (VariantId × List Comment)) (k : VariantId) :
    Option (List Comment) :=
  match m with
  | [] => none
  | (k', v) :: rest => if k' = k then some v else mapGet rest k

def mapSet (m : List (VariantId × List Comment)) (k : VariantId)
    (v : List Comment) : List (VariantId × List Comment) :=
  match m with
  | [] => [(k, v)]
  | (k', v') :: rest =>
    if k' = k then (k', v) :: rest else (k', v') :: mapSet rest k v

def insertByVariant (p : VariantId × List Comment) :
    List (VariantId × List Comment) → List (VariantId × List Comment)
  | [] => [p]
  | q :: rest =>
    if p.1.idx ≤ q.1.idx then p :: q :: rest else q :: insertByVariant p rest

def sortByVariant : List (VariantId × List Comment) →
    List (VariantId × List Comment)
  | [] => []
  | p :: rest => insertByVariant p (sortByVariant rest)

/-- The fold of `groupByVariant`'s `for` loop over the comment list. -/
def buildGroups (comments : List Comment) : List (VariantId × List Comment) :=
  comments.foldl
    (fun groups c => mapSet groups c.variant ((mapGet groups c.variant).getD [] ++ [c]))
    []

/-- `groupByVariant`: accumulate per-variant lists in first-seen order,
then sort the entries alphabetically by variant letter. -/
def groupByVariant (comments : List Comment) : List (VariantId × List Comment) :=
  sortByVariant (buildGroups comments)

def keysOf (m : List (VariantId × List Comment)) : List VariantId :=
  m.map Prod.fst

theorem mapGet_mapSet (m : List (VariantId × List Comment)) (k q : VariantId)
    (v : List Comment) :
    mapGet (mapSet m k v) q = if q = k then some v else mapGet m q := by
  induction m with
  | nil =>
    simp only [mapSet, mapGet]
    by_cases h : k = q
    · subst h; simp
    · rw [if_neg h, if_neg (fun hh => h hh.symm)]
  | cons p rest ih =>
    obtain ⟨k', v'⟩ := p
    simp only [mapSet]
    by_cases h1 : k' = k
    · subst h1
      simp only [if_pos rfl, mapGet]
      by_cases h2 : k' = q
      · subst h2; simp
      · rw [if_neg h2, if_neg (fun hh : q = k' => h2 hh.symm), if_neg h2]
    · rw [if_neg h1]
      simp only [mapGet]
      by_cases h2 : k' = q
      · subst h2
        rw [if_pos rfl, if_neg (fun hh : k' = k => h1 hh), if_pos rfl]
      · rw [if_neg h2, ih, if_neg h2]

theorem mem_keysOf_mapSet (m : List (VariantId × List Comment)) (k q : VariantId)
    (v : List Comment) :
    q ∈ keysOf (mapSet m k v) ↔ q ∈ keysOf m ∨ q = k := by
  induction m with
  | nil => simp [mapSet, keysOf]
  | cons p rest ih =>
    obtain ⟨k', v'⟩ := p
    by_cases h1 : k' = k
    · subst h1
      have hs : mapSet ((k', v') :: rest) k' v = (k', v) :: rest := by
        simp [mapSet]
      rw [hs]
      simp only [keysOf, List.map_cons, List.mem_cons] at ih ⊢
      tauto
    · have hs : mapSet ((k', v') :: rest) k v = (k', v') :: mapSet rest k v := by
        simp [mapSet, h1]
      rw [hs]
      simp only [keysOf, List.map_cons, List.mem_cons] at ih ⊢
      tauto

theorem keysOf_mapSet_nodup (m : List (VariantId × List Comment)) (k : VariantId)
    (v : List Comment) (h : (keysOf m).Nodup) : (keysOf (mapSet m k v)).Nodup := by
  induction m with
  | nil => simp [mapSet, keysOf]
  | cons p rest ih =>
    obtain ⟨k', v'⟩ := p
    simp only [keysOf, List.map_cons, List.nodup_cons] at h
    by_cases h1 : k' = k
    · subst h1
      have hs : mapSet ((k', v') :: rest) k' v = (k', v) :: rest := by
        simp [mapSet]
      rw [hs]
      simp only [keysOf, List.map_cons, List.nodup_cons]
      exact ⟨by simpa [keysOf] using h.1, by simpa [keysOf] using h.2⟩
    · have hs : mapSet ((k', v') :: rest) k v = (k', v') :: mapSet rest k v := by
        simp [mapSet, h1]
      rw [hs]
      simp only [keysOf, List.map_cons, List.nodup_cons]
      refine ⟨?_, ih (by simpa [keysOf] using h.2)⟩
      intro hmem
      rcases (mem_keysOf_mapSet rest k k' v).mp (by simpa [keysOf] using hmem) with hh | hh
      · exact h.1 (by simpa [keysOf] using hh)
      · exact h1 hh

/-- The per-variant content of the accumulated groups: exactly the
comments of that variant, in insertion order. -/
theorem buildGroups_get (cs : List Comment) (k : VariantId) :
    mapGet (buildGroups cs) k =
      (if cs.filter (fun c => c.variant == k) = [] then none
       else some (cs.filter (fun c => c.variant == k))) := by
  induction cs using List.reverseRecOn with
  | nil => simp [buildGroups, mapGet]
  | append_singleton cs c ih =>
    have hstep : buildGroups (cs ++ [c]) =
        mapSet (buildGroups cs) c.variant
          ((mapGet (buildGroups cs) c.variant).getD [] ++ [c]) := by
      simp [buildGroups, List.foldl_append]
    rw [hstep, mapGet_mapSet]
    by_cases hk : k = c.variant
    · subst hk
      rw [if_pos rfl, ih]
      have hfe : (cs ++ [c]).filter (fun x => x.variant == c.variant) =
          cs.filter (fun x => x.variant == c.variant) ++ [c] := by
        simp [List.filter_append]
      rw [hfe]
      by_cases hf : cs.filter (fun x => x.variant == c.variant) = []
      · simp [hf]
      · simp [hf]
    · rw [if_neg hk, ih]
      have hcv : (c.variant == k) = false := by
        rw [beq_eq_false_iff_ne]
        exact fun hh => hk hh.symm
      have hfe : (cs ++ [c]).filter (fun x => x.variant == k) =
          cs.filter (fun x => x.variant == k) := by
        simp [List.filter_append, hcv]
      rw [hfe]

theorem buildGroups_nodup (cs : List Comment) : (keysOf (buildGroups cs)).Nodup := by
  induction cs using List.reverseRecOn with
  | nil => simp [buildGroups, keysOf]
  | append_singleton cs c ih =>
    have hstep : buildGroups (cs ++ [c]) =
        mapSet (buildGroups cs) c.variant
          ((mapGet (buildGroups cs) c.variant).getD [] ++ [c]) := by
      simp [buildGroups, List.foldl_append]
    rw [hstep]
    exact keysOf_mapSet_nodup _ _ _ ih

theorem VariantId.idx_inj : ∀ a b : VariantId, a.idx = b.idx → a = b := by
  intro a b
  cases a <;> cases b <;> simp [VariantId.idx]

theorem mapGet_eq_none (m : List (VariantId × List Comment)) (k : VariantId) :
    mapGet m k = none ↔ k ∉ keysOf m := by
  induction m with
  | nil => simp [mapGet, keysOf]
  | cons p rest ih =>
    obtain ⟨k', v'⟩ := p
    by_cases h : k' = k
    · subst h; simp [mapGet, keysOf]
    · simp only [mapGet, if_neg h, keysOf, List.map_cons, List.mem_cons]
      rw [ih]
      simp only [keysOf]
      constructor
      · intro h2
        rintro (hh | hh)
        · exact h hh.symm
        · exact h2 hh
      · intro h2 hh
        exact h2 (Or.inr hh)

theorem mapGet_eq_some_iff :
    ∀ (m : List (VariantId × List Comment)) (k : VariantId) (v : List Comment),
    (keysOf m).Nodup → (mapGet m k = some v ↔ (k, v) ∈ m) := by
  intro m
  induction m with
  | nil => intro k v _; simp [mapGet]
  | cons p rest ih =>
    intro k v h
    obtain ⟨k', v'⟩ := p
    simp only [keysOf, List.map_cons, List.nodup_cons] at h
    by_cases hk : k' = k
    · subst hk
      simp only [mapGet, if_pos rfl, List.mem_cons]
      constructor
      · intro h2
        exact Or.inl (by simp [Option.some_inj.mp h2])
      · rintro (h2 | h2)
        · injection h2 with h2a h2b
          simp [h2b]
        · exact absurd (List.mem_map_of_mem Prod.fst h2) (by simpa [keysOf] using h.1)
    · simp only [mapGet, if_neg hk, List.mem_cons]
      have hne : ¬ ((k, v) = (k', v')) := by
        intro hh
        exact hk (congrArg Prod.fst hh).symm
      rw [ih k v (by simpa [keysOf] using h.2)]
      tauto

theorem mapGet_perm (l₁ l₂ : List (VariantId × List Comment)) (hp : l₁.Perm l₂)
    (h : (keysOf l₁).Nodup) (k : VariantId) : mapGet l₁ k = mapGet l₂ k := by
  have hk2 : (keysOf l₂).Nodup := by
    have := (hp.map Prod.fst).nodup_iff
    exact this.mp (by simpa [keysOf] using h)
  cases hg : mapGet l₁ k with
  | none =>
    have h1 : k ∉ keysOf l₁ := (mapGet_eq_none _ _).mp hg
    have h2 : k ∉ keysOf l₂ := by
      intro hm
      exact h1 ((hp.map Prod.fst).mem_iff.mpr (by simpa [keysOf] using hm))
    exact ((mapGet_eq_none _ _).mpr h2).symm
  | some v =>
    have hm : (k, v) ∈ l₁ := (mapGet_eq_some_iff l₁ k v h).mp hg
    exact ((mapGet_eq_some_iff l₂ k v hk2).mpr (hp.mem_iff.mp hm)).symm

theorem insertByVariant_perm (p : VariantId × List Comment)
    (l : List (VariantId × List Comment)) : (insertByVariant p l).Perm (p :: l) := by
  induction l with
  | nil => simp [insertByVariant]
  | cons q rest ih =>
    simp only [insertByVariant]
    by_cases hle : p.1.idx ≤ q.1.idx
    · rw [if_pos hle]
    · rw [if_neg hle]
      exact (ih.cons q).trans (List.Perm.swap p q rest)

theorem sortByVariant_perm (l : List (VariantId × List Comment)) :
    (sortByVariant l).Perm l := by
  induction l with
  | nil => simp [sortByVariant]
  | cons p rest ih =>
    exact (insertByVariant_perm p (sortByVariant rest)).trans (ih.cons p)

theorem insertByVariant_sorted (p : VariantId × List Comment)
    (l : List (VariantId × List Comment))
    (hs : l.Pairwise (fun a b => a.1.idx < b.1.idx)) (hp : p.1 ∉ keysOf l) :
    (insertByVariant p l).Pairwise (fun a b => a.1.idx < b.1.idx) := by
  induction l with
  | nil => simp [insertByVariant]
  | cons q rest ih =>
    have hq := List.pairwise_cons.mp hs
    simp only [insertByVariant]
    by_cases hle : p.1.idx ≤ q.1.idx
    · rw [if_pos hle]
      have hne : p.1 ≠ q.1 := by
        intro h
        exact hp (by simp [keysOf, h])
      have hlt : p.1.idx < q.1.idx :=
        lt_of_le_of_ne hle (fun h => hne (VariantId.idx_inj _ _ h))
      refine List.pairwise_cons.mpr ⟨?_, hs⟩
      intro b hb
      rcases List.mem_cons.mp hb with h | h
      · subst h; exact hlt
      · exact lt_trans hlt (hq.1 b h)
    · rw [if_neg hle]
      have hp' : p.1 ∉ keysOf rest := by
        intro hm
        exact hp (by simp [keysOf] at hm ⊢; exact Or.inr hm)
      refine List.pairwise_cons.mpr ⟨?_, ih hq.2 hp'⟩
      intro b hb
      have hb' : b ∈ p :: rest := (insertByVariant_perm p rest).mem_iff.mp hb
      rcases List.mem_cons.mp hb' with h | h
      · subst h; exact Nat.lt_of_not_le hle
      · exact hq.1 b h

theorem sortByVariant_sorted (l : List (VariantId × List Comment))
    (h : (keysOf l).Nodup) :
    (sortByVariant l).Pairwise (fun a b => a.1.idx < b.1.idx) := by
  induction l with
  | nil => simp [sortByVariant]
  | cons p rest ih =>
    simp only [keysOf, List.map_cons, List.nodup_cons] at h
    refine insertByVariant_sorted p (sortByVariant rest)
      (ih (by simpa [keysOf] using h.2)) ?_
    intro hm
    have h2 : p.1 ∈ keysOf rest := by
      have := ((sortByVariant_perm rest).map Prod.fst).mem_iff.mp
        (by simpa [keysOf] using hm)
      simpa [keysOf] using this
    exact h.1 (by simpa [keysOf] using h2)

theorem sorted_entries_ext : ∀ (m₁ m₂ : List (VariantId × List Comment)),
    m₁.Pairwise (fun a b => a.1.idx < b.1.idx) →
    m₂.Pairwise (fun a b => a.1.idx < b.1.idx) →
    (∀ k, mapGet m₁ k = mapGet m₂ k) → m₁ = m₂ := by
  intro m₁
  induction m₁ with
  | nil =>
    intro m₂ _ _ hget
    cases m₂ with
    | nil => rfl
    | cons q r =>
      obtain ⟨k₂, v₂⟩ := q
      have := hget k₂
      simp [mapGet] at this
  | cons p r₁ ih =>
    intro m₂ h₁ h₂ hget
    obtain ⟨k₁, v₁⟩ := p
    cases m₂ with
    | nil =>
      have := hget k₁
      simp [mapGet] at this
    | cons q r₂ =>
      obtain ⟨k₂, v₂⟩ := q
      have hp₁ := List.pairwise_cons.mp h₁
      have hp₂ := List.pairwise_cons.mp h₂
      have hg1 : mapGet ((k₂, v₂) :: r₂) k₁ = some v₁ := by
        rw [← hget k₁]; simp [mapGet]
      have hg2 : mapGet ((k₁, v₁) :: r₁) k₂ = some v₂ := by
        rw [hget k₂]; simp [mapGet]
      have hkey : k₁ = k₂ := by
        by_contra hne
        have hne₂₁ : ¬ (k₂ = k₁) := fun hh => hne hh.symm
        have hne₁₂ : ¬ (k₁ = k₂) := hne
        rw [mapGet, if_neg hne₂₁] at hg1
        rw [mapGet, if_neg hne₁₂] at hg2
        have hm1 : k₁ ∈ keysOf r₂ := by
          by_contra hnm
          rw [(mapGet_eq_none r₂ k₁).mpr hnm] at hg1
          exact Option.noConfusion hg1
        have hm2 : k₂ ∈ keysOf r₁ := by
          by_contra hnm
          rw [(mapGet_eq_none r₁ k₂).mpr hnm] at hg2
          exact Option.noConfusion hg2
        obtain ⟨b₁, hb₁, hfst₁⟩ := List.mem_map.mp hm1
        obtain ⟨b₂, hb₂, hfst₂⟩ := List.mem_map.mp hm2
        have l1 : k₂.idx < k₁.idx := hfst₁ ▸ hp₂.1 b₁ hb₁
        have l2 : k₁.idx < k₂.idx := hfst₂ ▸ hp₁.1 b₂ hb₂
        omega
      subst hkey
      have hv : v₁ = v₂ := by
        have : mapGet ((k₁, v₂) :: r₂) k₁ = some v₂ := by simp [mapGet]
        rw [hg1] at this
        exact Option.some_inj.mp this
      subst hv
      have htails : ∀ k, mapGet r₁ k = mapGet r₂ k := by
        intro k
        by_cases hk : k₁ = k
        · subst hk
          have hn1 : k₁ ∉ keysOf r₁ := by
            intro hm
            obtain ⟨b, hb, hfst⟩ := List.mem_map.mp hm
            have hlt : k₁.idx < b.1.idx := hp₁.1 b hb
            rw [hfst] at hlt
            omega
          have hn2 : k₁ ∉ keysOf r₂ := by
            intro hm
            obtain ⟨b, hb, hfst⟩ := List.mem_map.mp hm
            have hlt : k₁.idx < b.1.idx := hp₂.1 b hb
            rw [hfst] at hlt
            omega
          rw [(mapGet_eq_none r₁ k₁).mpr hn1, (mapGet_eq_none r₂ k₁).mpr hn2]
        · have := hget k
          rwa [mapGet, if_neg hk, mapGet, if_neg hk] at this
      rw [ih r₂ hp₁.2 hp₂.2 htails]

/-- The comments of one variant, when there are any: what
`groupByVariant` associates with that variant letter. -/
def variantFilter (cs : List Comment) (v : VariantId) : Option (List Comment) :=
  if cs.filter (fun c => c.variant == v) = [] then none
  else some (cs.filter (fun c => c.variant == v))

def allVariants : List VariantId := [.A, .B, .C, .D, .E, .F]

/-- The specification-level reading of `groupByVariant`: the variants in
alphabetical order, each present exactly when it has comments and
carrying them in insertion order. -/
def canonicalGroups (cs : List Comment) : List (VariantId × List Comment) :=
  allVariants.filterMap (fun v => (variantFilter cs v).map (fun f => (v, f)))

theorem keys_filterMap_sub (cs : List Comment) (l : List VariantId) :
    ∀ q ∈ keysOf (l.filterMap (fun v => (variantFilter cs v).map (fun f => (v, f)))),
      q ∈ l := by
  induction l with
  | nil => simp [keysOf]
  | cons v rest ih =>
    intro q hq
    cases hv : variantFilter cs v with
    | none =>
      rw [List.filterMap_cons] at hq
      simp only [hv, Option.map_none'] at hq
      exact List.mem_cons.mpr (Or.inr (ih q hq))
    | some f =>
      rw [List.filterMap_cons] at hq
      simp only [hv, Option.map_some'] at hq
      rcases (by simpa [keysOf] using hq : q = v ∨ q ∈ keysOf
          (rest.filterMap (fun v => (variantFilter cs v).map (fun f => (v, f))))) with
        h | h
      · exact List.mem_cons.mpr (Or.inl h)
      · exact List.mem_cons.mpr (Or.inr (ih q h))

theorem mapGet_filterMap (cs : List Comment) :
    ∀ (l : List VariantId), l.Nodup → ∀ k ∈ l,
      mapGet (l.filterMap (fun v => (variantFilter cs v).map (fun f => (v, f)))) k =
        variantFilter cs k := by
  intro l
  induction l with
  | nil => intro _ k hk; simp at hk
  | cons v rest ih =>
    intro hnd k hk
    have hnd' := List.nodup_cons.mp hnd
    cases hv : variantFilter cs v with
    | none =>
      rw [List.filterMap_cons]
      simp only [hv, Option.map_none']
      by_cases hkv : k = v
      · subst hkv
        have hnone : mapGet
            (rest.filterMap (fun v => (variantFilter cs v).map (fun f => (v, f)))) k =
            none :=
          (mapGet_eq_none _ _).mpr (fun hm => hnd'.1 (keys_filterMap_sub cs rest k hm))
        rw [hnone, hv]
      · refine ih hnd'.2 k ?_
        rcases List.mem_cons.mp hk with h | h
        · exact absurd h hkv
        · exact h
    | some f =>
      rw [List.filterMap_cons]
      simp only [hv, Option.map_some']
      by_cases hkv : k = v
      · subst hkv
        rw [mapGet, if_pos rfl, hv]
      · rw [mapGet, if_neg (fun hh => hkv hh.symm)]
        refine ih hnd'.2 k ?_
        rcases List.mem_cons.mp hk with h | h
        · exact absurd h hkv
        · exact h

theorem canonicalGroups_sorted (cs : List Comment) :
    (canonicalGroups cs).Pairwise (fun a b => a.1.idx < b.1.idx) := by
  have main : ∀ (l : List VariantId), l.Pairwise (fun a b => a.idx < b.idx) →
      (l.filterMap (fun v => (variantFilter cs v).map (fun f => (v, f)))).Pairwise
        (fun a b => a.1.idx < b.1.idx) := by
    intro l
    induction l with
    | nil => simp
    | cons v rest ih =>
      intro hp
      have hp' := List.pairwise_cons.mp hp
      cases hv : variantFilter cs v with
      | none =>
        rw [List.filterMap_cons]
        simp only [hv, Option.map_none']
        exact ih hp'.2
      | some f =>
        rw [List.filterMap_cons]
        simp only [hv, Option.map_some']
        refine List.pairwise_cons.mpr ⟨?_, ih hp'.2⟩
        intro b hb
        have hbm : b.1 ∈ rest :=
          keys_filterMap_sub cs rest b.1 (List.mem_map_of_mem Prod.fst hb)
        exact hp'.1 b.1 hbm
  exact main allVariants (by decide)

/-- `groupByVariant` characterized against the spec's wording: one entry
per variant carrying comments, the variants alphabetically sorted, and
each variant's comments kept in insertion order. -/
theorem groupByVariant_eq (cs : List Comment) :
    groupByVariant cs = canonicalGroups cs := by
  refine sorted_entries_ext _ _ ?_ ?_ ?_
  · exact sortByVariant_sorted _ (buildGroups_nodup cs)
  · exact canonicalGroups_sorted cs
  · intro k
    have hnd : (keysOf (sortByVariant (buildGroups cs))).Nodup := by
      have hperm := (sortByVariant_perm (buildGroups cs)).map Prod.fst
      exact (hperm.nodup_iff).mpr (by simpa [keysOf] using buildGroups_nodup cs)
    have h1 : mapGet (groupByVariant cs) k = mapGet (buildGroups cs) k :=
      mapGet_perm _ _ (sortByVariant_perm _) hnd k
    have h2 := mapGet_filterMap cs allVariants (by decide) k (by cases k <;> decide)
    rw [h1, buildGroups_get, canonicalGroups, h2, variantFilter]

/-! ## formatComment / formatAsMarkdown (format-utils.ts lines 33-105,
identically inlined in FeedbackOverlay.tsx lines 382-416) -/

/-- `readablePath.split(' > ').pop()`: the last element of the never-empty
split result. -/
def lastPathSegment (readablePath : JSStr) : JSStr :=
  (splitOnNE ' ' ['>', ' '] readablePath).getLastD []

/-- `formatComment`: the numbered Markdown entry of one comment; the
template literal spans two physical lines, so the result contains one
newline. -/
def formatComment (comment : Comment) (index : ℕ) : JSStr :=
  let selectorPart := ['`'] ++ comment.element.selector ++ ['`']
  let textHint :=
    if comment.element.textContent ≠ [] then
      jstr ", " ++ comment.element.tagName ++ jstr " with \"" ++
        comment.element.textContent ++ jstr "\""
    else []
  natDigits index ++ jstr ". **" ++ lastPathSegment comment.element.readablePath ++
    jstr "** (" ++ selectorPart ++ textHint ++ jstr ")" ++
    ['\n'] ++ jstr "   \"" ++ comment.text ++ jstr "\""

/-- The `lines` array of `formatAsMarkdown` just before `join('\n')`:
header, variant sections (each comment numbered by its position within
the variant's `forEach`, starting at 1), optional overall block, footer. -/
def formatAsMarkdownLines (comments : List Comment) (target overall : JSStr) :
    List JSStr :=
  let header := [jstr "## Design Lab Feedback", [],
    jstr "**Target:** " ++ target,
    jstr "**Comments:** " ++ natDigits comments.length, []]
  let sections := (groupByVariant comments).flatMap fun p =>
    (jstr "### Variant " ++ p.1.str) ::
      (p.2.enum.flatMap fun q => [formatComment q.2 (q.1 + 1), []])
  let overallBlock :=
    if jsTrim overall ≠ [] then [jstr "### Overall Direction", jsTrim overall, []]
    else []
  header ++ sections ++ overallBlock ++
    [jstr "---", jstr "*Feedback from Design Lab interactive overlay*"]

/-- `formatAsMarkdown`: the line entries joined with newlines. -/
def formatAsMarkdown (comments : List Comment) (target overall : JSStr) : JSStr :=
  List.intercalate ['\n'] (formatAsMarkdownLines comments target overall)

/-! ## Reading the listing structure back out of the line entries.
`sectionsOf` is a generic observer, independent of the formatter: it
collects, under each `### Variant X` entry, the non-empty entries that
follow it, stopping at the `### Overall Direction` heading or at the
`---` rule. -/

def variantHeadStart : JSStr := jstr "### Variant "

def secClose (cur : Option (JSStr × List JSStr))
    (rest : List (JSStr × List JSStr)) : List (JSStr × List JSStr) :=
  match cur with
  | none => rest
  | some s => s :: rest

def sectionsGo : Option (JSStr × List JSStr) → List JSStr →
    List (JSStr × List JSStr)
  | cur, [] => secClose cur []
  | cur, l :: rest =>
    if l = jstr "### Overall Direction" ∨ l = jstr "---" then secClose cur []
    else if variantHeadStart.isPrefixOf l then
      secClose cur (sectionsGo (some (l.drop variantHeadStart.length, [])) rest)
    else if l = [] then sectionsGo cur rest
    else
      match cur with
      | none => sectionsGo none rest
      | some (n, es) => sectionsGo (some (n, es ++ [l])) rest

def sectionsOf (ls : List JSStr) : List (JSStr × List JSStr) :=
  sectionsGo none ls

theorem digitChar_isDigit (m : ℕ) : isAsciiDigit (digitChar m) = true := by
  unfold digitChar
  split <;> decide

theorem natDigitsF_head : ∀ (fuel n : ℕ), n < fuel →
    ∃ d t, natDigitsF fuel n = d :: t ∧ isAsciiDigit d = true := by
  intro fuel
  induction fuel with
  | zero => intro n hn; omega
  | succ fuel ih =>
    intro n hn
    rw [natDigitsF]
    split
    · exact ⟨digitChar n, [], rfl, digitChar_isDigit n⟩
    · next h =>
      have hq : n / 10 < fuel := by
        have := Nat.div_lt_self (show 0 < n by omega) (show 1 < 10 by omega)
        omega
      obtain ⟨d, t, hd, hdig⟩ := ih (n / 10) hq
      exact ⟨d, t ++ [digitChar (n % 10)], by rw [hd]; rfl, hdig⟩

theorem natDigits_head (n : ℕ) :
    ∃ d t, natDigits n = d :: t ∧ isAsciiDigit d = true :=
  natDigitsF_head (n + 1) n (by omega)

theorem formatComment_head (c : Comment) (i : ℕ) :
    ∃ d t, formatComment c i = d :: t ∧ isAsciiDigit d = true := by
  obtain ⟨d, t, hd, hdig⟩ := natDigits_head i
  simp only [formatComment, List.append_assoc, hd, List.cons_append]
  exact ⟨d, _, rfl, hdig⟩

/-- A digit-headed line entry takes none of the section-control branches
of `sectionsGo`. -/
theorem entry_props (l : JSStr)
    (h : ∃ d t, l = d :: t ∧ isAsciiDigit d = true) :
    ¬(l = jstr "### Overall Direction" ∨ l = jstr "---") ∧
    ¬ variantHeadStart.isPrefixOf l ∧ l ≠ [] := by
  obtain ⟨d, t, rfl, hdig⟩ := h
  refine ⟨?_, ?_, by simp⟩
  · rintro (h | h)
    · rw [show jstr "### Overall Direction" = '#' :: jstr "## Overall Direction" from rfl,
        List.cons_eq_cons] at h
      rw [h.1] at hdig
      exact absurd hdig (by decide)
    · rw [show jstr "---" = '-' :: jstr "--" from rfl, List.cons_eq_cons] at h
      rw [h.1] at hdig
      exact absurd hdig (by decide)
  · intro hp
    rcases List.isPrefixOf_iff_prefix.mp hp with ⟨u, hu⟩
    rw [show variantHeadStart = '#' :: jstr "## Variant " from rfl,
      List.cons_append, List.cons_eq_cons] at hu
    rw [← hu.1] at hdig
    exact absurd hdig (by decide)

theorem sectionsGo_cons (cur : Option (JSStr × List JSStr)) (l : JSStr)
    (rest : List JSStr) :
    sectionsGo cur (l :: rest) =
      if l = jstr "### Overall Direction" ∨ l = jstr "---" then secClose cur []
      else if variantHeadStart.isPrefixOf l then
        secClose cur (sectionsGo (some (l.drop variantHeadStart.length, [])) rest)
      else if l = [] then sectionsGo cur rest
      else
        match cur with
        | none => sectionsGo none rest
        | some (n, es) => sectionsGo (some (n, es ++ [l])) rest := rfl

theorem sectionsGo_blank (cur : Option (JSStr × List JSStr)) (rest : List JSStr) :
    sectionsGo cur ([] :: rest) = sectionsGo cur rest := by
  rw [sectionsGo_cons, if_neg (by decide), if_neg (by decide), if_pos rfl]

theorem sectionsGo_entry (n : JSStr) (es : List JSStr) (l : JSStr)
    (rest : List JSStr) (h : ∃ d t, l = d :: t ∧ isAsciiDigit d = true) :
    sectionsGo (some (n, es)) (l :: rest) = sectionsGo (some (n, es ++ [l])) rest := by
  obtain ⟨h1, h2, h3⟩ := entry_props l h
  rw [sectionsGo_cons, if_neg h1, if_neg h2, if_neg h3]

theorem sectionsGo_star (t : JSStr) (rest : List JSStr) :
    sectionsGo none (('*' :: t) :: rest) = sectionsGo none rest := by
  have h1 : ¬(('*' :: t) = jstr "### Overall Direction" ∨ ('*' :: t) = jstr "---") := by
    rintro (h | h)
    · rw [show jstr "### Overall Direction" = '#' :: jstr "## Overall Direction" from rfl,
        List.cons_eq_cons] at h
      exact absurd h.1 (by decide)
    · rw [show jstr "---" = '-' :: jstr "--" from rfl, List.cons_eq_cons] at h
      exact absurd h.1 (by decide)
  have h2 : ¬ variantHeadStart.isPrefixOf ('*' :: t) := by
    intro hp
    rcases List.isPrefixOf_iff_prefix.mp hp with ⟨u, hu⟩
    rw [show variantHeadStart = '#' :: jstr "## Variant " from rfl,
      List.cons_append, List.cons_eq_cons] at hu
    exact absurd hu.1 (by decide)
  rw [sectionsGo_cons, if_neg h1, if_neg h2, if_neg (by simp)]

theorem sectionsGo_title (rest : List JSStr) :
    sectionsGo none (jstr "## Design Lab Feedback" :: rest) = sectionsGo none rest := by
  rw [sectionsGo_cons, if_neg (by decide), if_neg (by decide), if_neg (by decide)]

theorem sectionsGo_entries (entries : List JSStr)
    (h : ∀ l ∈ entries, ∃ d t, l = d :: t ∧ isAsciiDigit d = true) :
    ∀ (n : JSStr) (es : List JSStr) (rest : List JSStr),
    sectionsGo (some (n, es)) (entries.flatMap (fun e => [e, []]) ++ rest) =
      sectionsGo (some (n, es ++ entries)) rest := by
  induction entries with
  | nil => intro n es rest; simp
  | cons e tail ih =>
    intro n es rest
    rw [List.flatMap_cons]
    simp only [List.cons_append, List.append_assoc, List.nil_append]
    rw [sectionsGo_entry n es e _ (h e (by simp)), sectionsGo_blank,
      ih (fun l hl => h l (by simp [hl])) n (es ++ [e]) rest]
    simp

theorem variantHeading_props (v : VariantId) :
    ¬((jstr "### Variant " ++ v.str) = jstr "### Overall Direction" ∨
      (jstr "### Variant " ++ v.str) = jstr "---") ∧
    variantHeadStart.isPrefixOf (jstr "### Variant " ++ v.str) ∧
    (jstr "### Variant " ++ v.str).drop variantHeadStart.length = v.str := by
  cases v <;> exact ⟨by decide, by decide, by decide⟩

theorem flatMap_pair_map (l : List (ℕ × Comment)) (f : ℕ × Comment → JSStr) :
    ((l.map f).flatMap fun e => [e, []]) = l.flatMap fun q => [f q, []] := by
  induction l with
  | nil => rfl
  | cons a l ih => simp [ih]

theorem sectionsGo_sections (groups : List (VariantId × List Comment))
    (rest : List JSStr) (hrest : ∀ cur, sectionsGo cur rest = secClose cur []) :
    ∀ cur, sectionsGo cur
      ((groups.flatMap fun p => (jstr "### Variant " ++ p.1.str) ::
        (p.2.enum.flatMap fun q => [formatComment q.2 (q.1 + 1), []])) ++ rest) =
      secClose cur (groups.map fun p => (p.1.str,
        p.2.enum.map fun q => formatComment q.2 (q.1 + 1))) := by
  induction groups with
  | nil => intro cur; simpa using hrest cur
  | cons p groups' ih =>
    intro cur
    obtain ⟨v, cs⟩ := p
    rw [List.flatMap_cons]
    simp only [List.cons_append, List.append_assoc]
    obtain ⟨hh1, hh2, hh3⟩ := variantHeading_props v
    rw [sectionsGo_cons, if_neg hh1, if_pos hh2, hh3]
    rw [← flatMap_pair_map cs.enum (fun q => formatComment q.2 (q.1 + 1)),
      sectionsGo_entries _ ?hdig v.str [] _]
    · rw [List.nil_append, ih]
      simp [secClose]
    case hdig =>
      intro l hl
      rcases List.mem_map.mp hl with ⟨q, hq, rfl⟩
      exact formatComment_head q.2 (q.1 + 1)

/-- The comment listing of the generated report, read back generically:
one section per variant of `groupByVariant`, whose entries are exactly
that variant's comments rendered by `formatComment` with per-variant
indices `1, 2, …` (restarting in each section). -/
theorem sectionsOf_formatAsMarkdownLines (cs : List Comment) (target overall : JSStr) :
    sectionsOf (formatAsMarkdownLines cs target overall) =
      (groupByVariant cs).map fun p =>
        (p.1.str, p.2.enum.map fun q => formatComment q.2 (q.1 + 1)) := by
  have hrest : ∀ cur, sectionsGo cur
      ((if jsTrim overall ≠ [] then [jstr "### Overall Direction", jsTrim overall, []]
        else []) ++ [jstr "---", jstr "*Feedback from Design Lab interactive overlay*"]) =
      secClose cur [] := by
    intro cur
    by_cases ho : jsTrim overall = []
    · rw [if_neg (by simp [ho]), List.nil_append, sectionsGo_cons, if_pos (Or.inr rfl)]
    · rw [if_pos ho, List.cons_append, sectionsGo_cons, if_pos (Or.inl rfl)]
  simp only [sectionsOf, formatAsMarkdownLines]
  simp only [List.cons_append, List.nil_append, List.append_assoc]
  rw [sectionsGo_title, sectionsGo_blank,
    show jstr "**Target:** " ++ target = '*' :: (jstr "*Target:** " ++ target) from rfl,
    sectionsGo_star,
    show jstr "**Comments:** " ++ natDigits cs.length =
      '*' :: (jstr "*Comments:** " ++ natDigits cs.length) from rfl,
    sectionsGo_star, sectionsGo_blank,
    sectionsGo_sections (groupByVariant cs) _ hrest none]
  rfl

/-- C1 (amended): in every Markdown report, comments are listed grouped
per variant with the variants sorted lexicographically and the comments
of a variant in insertion order, but with the comment numbers restarting
at 1 inside each variant section (`forEach` index + 1), not as one global
1..N sequence over the whole listing. -/
theorem formatAsMarkdown_grouping (cs : List Comment) (target overall : JSStr) :
    sectionsOf (formatAsMarkdownLines cs target overall) =
      (canonicalGroups cs).map (fun p =>
        (p.1.str, p.2.enum.map fun q => formatComment q.2 (q.1 + 1))) ∧
    groupByVariant cs = canonicalGroups cs ∧
    formatAsMarkdown cs target overall =
      List.intercalate ['\n'] (formatAsMarkdownLines cs target overall) := by
  refine ⟨?_, groupByVariant_eq cs, rfl⟩
  rw [sectionsOf_formatAsMarkdownLines, groupByVariant_eq]

def cexElemA : ElementIdentifier :=
  ⟨jstr "#a", jstr "Variant A > Button", jstr "button", jstr "Go", [], []⟩

def cexElemB : ElementIdentifier :=
  ⟨jstr "#b", jstr "Variant B > Button", jstr "button", jstr "Stop", [], []⟩

def cexCommentA : Comment :=
  ⟨jstr "c1", VariantId.A, cexElemA, ⟨0, 0⟩, jstr "bigger", 0⟩

def cexCommentB : Comment :=
  ⟨jstr "c2", VariantId.B, cexElemB, ⟨0, 0⟩, jstr "smaller", 0⟩

/-- C1 counterexample: with one comment in variant A and one in variant B,
the report numbers the second listed comment 1 (per-variant restart), not
2 — so the numbers are not assigned as a single 1..N sequence over the
whole listing, refuting the claim as stated. -/
theorem formatAsMarkdown_numbering_cex :
    sectionsOf (formatAsMarkdownLines [cexCommentA, cexCommentB]
        (jstr "T") (jstr "dir")) =
      [(jstr "A", [formatComment cexCommentA 1]),
       (jstr "B", [formatComment cexCommentB 1])] ∧
    formatComment cexCommentB 1 ≠ formatComment cexCommentB 2 := by
  constructor
  · rfl
  · decide

/-! ## parseFeedbackMarkdown (format-utils.ts lines 195-260) -/

/-- The characters matched by an (unflagged) regex `.`: everything except
the line terminators. -/
def isRegexDot (c : Char) : Bool :=
  ! (c == '\n' || c == '\r' || c.toNat == 0x2028 || c.toNat == 0x2029)

structure ParseState where
  target : Option JSStr
  currentVariant : Option VariantId
  inOverall : Bool
  overallLines : List JSStr
deriving DecidableEq, Repr

/-- The capture of `/^\*\*Target:\*\*\s*(.+)$/` on one line: after the
literal prefix at least one more character must remain; the greedy `\s*`
hands `(.+)` the rest with its leading whitespace stripped, provided all
of it is matched by `.`; when the rest is whitespace only, backtracking
leaves exactly the final character for `(.+)`. -/
def targetCapture (l : JSStr) : Option JSStr :=
  if (jstr "**Target:**").isPrefixOf l then
    let rest := l.drop (jstr "**Target:**").length
    let core := rest.dropWhile isJsWs
    if core = [] then
      if h : rest = [] then none
      else if isRegexDot (rest.getLast h) then some [rest.getLast h] else none
    else if core.all isRegexDot then some core else none
  else none

/-- The match of `/^### Variant ([A-F])$/`. -/
def variantHeadingMatch (l : JSStr) : Option VariantId :=
  if l = jstr "### Variant A" then some .A
  else if l = jstr "### Variant B" then some .B
  else if l = jstr "### Variant C" then some .C
  else if l = jstr "### Variant D" then some .D
  else if l = jstr "### Variant E" then some .E
  else if l = jstr "### Variant F" then some .F
  else none

/-- One iteration of the parser's `for` loop.  The comment-header and
quoted-text branches of the source only `continue`, so they leave the
state unchanged and the final arm is the identity. -/
def parseStep (st : ParseState) (l : JSStr) : ParseState :=
  match targetCapture l with
  | some cap => { st with target := some (jsTrim cap) }
  | none =>
    match variantHeadingMatch l with
    | some v => { st with currentVariant := some v, inOverall := false }
    | none =>
      if l = jstr "### Overall Direction" then
        { st with inOverall := true, currentVariant := none }
      else if st.inOverall ∧ ¬ (jstr "---").isPrefixOf l ∧ ¬ (jstr "*").isPrefixOf l then
        { st with overallLines := st.overallLines ++ [l] }
      else st

structure ParsedPayload where
  target : Option JSStr
  comments : List Comment
  overall : JSStr
deriving DecidableEq, Repr

/-- `parseFeedbackMarkdown`: split on newlines, run the loop, then join
and trim the collected overall lines.  The `comments` array is created
but never filled (element reconstruction is a documented non-goal), and
the try/catch wrapper is dead code — no statement of the body throws, so
the embedding is total. -/
def parseFeedbackMarkdown (markdown : JSStr) : ParsedPayload :=
  let lines := splitOnNE '\n' [] markdown
  let st := lines.foldl parseStep ⟨none, none, false, []⟩
  { target := st.target, comments := [],
    overall := jsTrim (List.intercalate ['\n'] st.overallLines) }

theorem splitChar_ne_nil (c : Char) (s : JSStr) : splitChar c s ≠ [] := by
  cases s with
  | nil => simp [splitChar]
  | cons d rest =>
    rw [splitChar]
    by_cases hd : d = c
    · simp [hd]
    · rw [if_neg hd]
      cases h : splitChar c rest <;> simp

theorem splitChar_append (c : Char) (x y : JSStr) :
    splitChar c (x ++ c :: y) = splitChar c x ++ splitChar c y := by
  induction x with
  | nil => simp [splitChar]
  | cons d x ih =>
    by_cases hd : d = c
    · subst hd
      rw [List.cons_append, splitChar, if_pos rfl, ih, splitChar, if_pos rfl]
      rfl
    · rw [List.cons_append, splitChar, if_neg hd, ih, splitChar, if_neg hd]
      cases hx : splitChar c x with
      | nil => exact absurd hx (splitChar_ne_nil c x)
      | cons h t => simp

theorem splitChar_no_sep (c : Char) (s : JSStr) (h : ∀ ch ∈ s, ch ≠ c) :
    splitChar c s = [s] := by
  induction s with
  | nil => rfl
  | cons d rest ih =>
    rw [splitChar, if_neg (h d (by simp)), ih (fun ch hch => h ch (by simp [hch]))]

theorem intercalate_cons_ne (sep : JSStr) (a : JSStr) (l : List JSStr) (h : l ≠ []) :
    List.intercalate sep (a :: l) = a ++ sep ++ List.intercalate sep l := by
  cases l with
  | nil => exact absurd rfl h
  | cons b m => simp [List.intercalate, List.intersperse]

theorem intercalate_cons_head (sep : JSStr) (d : Char) (h : JSStr) (t : List JSStr) :
    List.intercalate sep ((d :: h) :: t) = d :: List.intercalate sep (h :: t) := by
  cases t with
  | nil => simp [List.intercalate]
  | cons b m => simp [List.intercalate, List.intersperse]

theorem intercalate_splitChar (c : Char) (s : JSStr) :
    List.intercalate [c] (splitChar c s) = s := by
  induction s with
  | nil => simp [splitChar, List.intercalate]
  | cons d rest ih =>
    rw [splitChar]
    by_cases hd : d = c
    · subst hd
      rw [if_pos rfl, intercalate_cons_ne [d] [] (splitChar d rest) (splitChar_ne_nil d rest), ih]
      rfl
    · rw [if_neg hd]
      cases hx : splitChar c rest with
      | nil => exact absurd hx (splitChar_ne_nil c rest)
      | cons h t =>
        rw [intercalate_cons_head, ← hx, ih]

theorem splitChar_intercalate_flat (c : Char) :
    ∀ (L : List JSStr), L ≠ [] →
    splitChar c (List.intercalate [c] L) = L.flatMap (splitChar c) := by
  intro L
  induction L with
  | nil => intro h; exact absurd rfl h
  | cons a L ih =>
    intro _
    cases L with
    | nil => simp [List.intercalate]
    | cons b m =>
      rw [intercalate_cons_ne [c] a (b :: m) (by simp), List.append_assoc,
        List.singleton_append, splitChar_append c a (List.intercalate [c] (b :: m)),
        ih (by simp)]
      simp

theorem dropWhile_head_false (p : Char → Bool) :
    ∀ (l : JSStr) (a : Char) (t : JSStr), List.dropWhile p l = a :: t → p a = false := by
  intro l
  induction l with
  | nil => intro a t h; simp [List.dropWhile] at h
  | cons d rest ih =>
    intro a t h
    by_cases hd : p d
    · rw [List.dropWhile_cons_of_pos hd] at h
      exact ih a t h
    · rw [List.dropWhile_cons_of_neg hd] at h
      rw [List.cons_eq_cons] at h
      rw [← h.1]
      simpa using hd

theorem dropWhile_idem_char (p : Char → Bool) (l : JSStr) :
    List.dropWhile p (List.dropWhile p l) = List.dropWhile p l := by
  induction l with
  | nil => rfl
  | cons d l ih =>
    by_cases hd : p d
    · rw [List.dropWhile_cons_of_pos hd, ih]
    · rw [List.dropWhile_cons_of_neg hd, List.dropWhile_cons_of_neg hd]

theorem jsTrim_prefix_start (s : JSStr) :
    jsTrim s <+: s.dropWhile isJsWs := by
  rw [jsTrim]
  rw [← List.reverse_suffix]
  simpa using List.dropWhile_suffix (l := (s.dropWhile isJsWs).reverse) isJsWs

theorem jsTrim_dropWhile (s : JSStr) : (jsTrim s).dropWhile isJsWs = jsTrim s := by
  cases hj : jsTrim s with
  | nil => rfl
  | cons a t =>
    have hp : jsTrim s <+: s.dropWhile isJsWs := jsTrim_prefix_start s
    rw [hj] at hp
    obtain ⟨u, hu⟩ := hp
    have ha : isJsWs a = false := dropWhile_head_false isJsWs s a (t ++ u) (by
      rw [← hu]; rfl)
    rw [List.dropWhile_cons_of_neg (by simp [ha])]

theorem jsTrim_idem (s : JSStr) : jsTrim (jsTrim s) = jsTrim s := by
  conv_lhs => rw [jsTrim, jsTrim_dropWhile]
  have hrev : (jsTrim s).reverse = (s.dropWhile isJsWs).reverse.dropWhile isJsWs := by
    rw [jsTrim, List.reverse_reverse]
  rw [hrev, dropWhile_idem_char, ← hrev, List.reverse_reverse]

theorem jsTrim_append_ws (s : JSStr) (w : Char) (hw : isJsWs w = true) :
    jsTrim (s ++ [w]) = jsTrim s := by
  rw [jsTrim, jsTrim, List.dropWhile_append]
  by_cases h : s.dropWhile isJsWs = []
  · rw [if_pos (by simp [h])]
    simp [List.dropWhile, hw, h]
  · rw [if_neg (by simp [h])]
    rw [List.reverse_append]
    simp only [List.reverse_cons, List.reverse_nil, List.nil_append,
      List.singleton_append]
    rw [List.dropWhile_cons_of_pos hw]

theorem dropWhile_of_trimFix (t : JSStr) (h : jsTrim t = t) :
    t.dropWhile isJsWs = t := by
  cases ht : t with
  | nil => rfl
  | cons c t' =>
    by_cases hc : isJsWs c
    · exfalso
      have h1 : (jsTrim (c :: t')).length ≤ t'.length := by
        rw [jsTrim, List.dropWhile_cons_of_pos hc]
        calc ((((t'.dropWhile isJsWs).reverse).dropWhile isJsWs).reverse).length
            = (((t'.dropWhile isJsWs).reverse).dropWhile isJsWs).length := by
              rw [List.length_reverse]
          _ ≤ ((t'.dropWhile isJsWs).reverse).length := (List.dropWhile_suffix _).length_le
          _ = (t'.dropWhile isJsWs).length := by rw [List.length_reverse]
          _ ≤ t'.length := (List.dropWhile_suffix _).length_le
      rw [ht] at h
      rw [h] at h1
      simp at h1
    · rw [List.dropWhile_cons_of_neg hc]

theorem targetCapture_none_of_not_pfx (l : JSStr)
    (h : ¬ (jstr "**Target:**").isPrefixOf l) : targetCapture l = none := by
  rw [targetCapture, if_neg h]

theorem not_isPrefixOf_append (p a x : JSStr) (hlen : p.length ≤ a.length)
    (h : p.isPrefixOf a = false) : ¬ p.isPrefixOf (a ++ x) := by
  intro hp
  have h1 : p <+: a ++ x := List.isPrefixOf_iff_prefix.mp hp
  have h2 : p = (a ++ x).take p.length := by
    obtain ⟨u, hu⟩ := h1
    rw [← hu, List.take_left]
  rw [List.take_append_of_le_length hlen] at h2
  have h3 : p <+: a := h2 ▸ List.take_prefix p.length a
  rw [← List.isPrefixOf_iff_prefix] at h3
  rw [h3] at h
  exact Bool.noConfusion h

theorem star_not_pfx (c : Char) (t : JSStr) (h : c ≠ '*') :
    ¬ (jstr "*").isPrefixOf (c :: t) := by
  intro hp
  rw [show jstr "*" = ['*'] from rfl] at hp
  simp only [List.isPrefixOf, Bool.and_eq_true, beq_iff_eq] at hp
  exact h hp.1.symm

theorem targetCapture_none_of_notStar (l : JSStr)
    (h : ¬ (jstr "*").isPrefixOf l) : targetCapture l = none := by
  refine targetCapture_none_of_not_pfx l (fun hp => h ?_)
  have h1 : (jstr "*") <+: (jstr "**Target:**") := ⟨jstr "*Target:**", rfl⟩
  exact List.isPrefixOf_iff_prefix.mpr (h1.trans (List.isPrefixOf_iff_prefix.mp hp))

theorem targetCapture_none_of_head (c : Char) (t : JSStr) (h : c ≠ '*') :
    targetCapture (c :: t) = none :=
  targetCapture_none_of_notStar _ (star_not_pfx c t h)

theorem variantHeadingMatch_none_of_head (c : Char) (t : JSStr) (h : c ≠ '#') :
    variantHeadingMatch (c :: t) = none := by
  have hne : ∀ s : JSStr, s.head? = some '#' → (c :: t) ≠ s := by
    intro s hs heq
    rw [← heq] at hs
    exact h (Option.some_inj.mp hs)
  rw [variantHeadingMatch,
    if_neg (hne (jstr "### Variant A") (by decide)),
    if_neg (hne (jstr "### Variant B") (by decide)),
    if_neg (hne (jstr "### Variant C") (by decide)),
    if_neg (hne (jstr "### Variant D") (by decide)),
    if_neg (hne (jstr "### Variant E") (by decide)),
    if_neg (hne (jstr "### Variant F") (by decide))]

theorem overallHeading_ne_of_head (c : Char) (t : JSStr) (h : c ≠ '#') :
    (c :: t) ≠ jstr "### Overall Direction" := by
  intro heq
  rw [show jstr "### Overall Direction" = '#' :: jstr "## Overall Direction" from rfl,
    List.cons_eq_cons] at heq
  exact h heq.1

/-- Lines whose head is neither `*` nor `#` leave the parser state
unchanged outside the overall block. -/
theorem parseStep_skip (st : ParseState) (c : Char) (t : JSStr)
    (hc1 : c ≠ '*') (hc2 : c ≠ '#') (hin : st.inOverall = false) :
    parseStep st (c :: t) = st := by
  simp only [parseStep, targetCapture_none_of_head c t hc1,
    variantHeadingMatch_none_of_head c t hc2]
  rw [if_neg (overallHeading_ne_of_head c t hc2),
    if_neg (fun hand => by rw [hin] at hand; exact Bool.noConfusion hand.1)]

theorem parseStep_blank_inactive (st : ParseState) (hin : st.inOverall = false) :
    parseStep st [] = st := by
  simp only [parseStep, show targetCapture [] = none from by decide,
    show variantHeadingMatch [] = none from by decide]
  rw [if_neg (by decide),
    if_neg (fun hand => by rw [hin] at hand; exact Bool.noConfusion hand.1)]

theorem parseStep_title (st : ParseState) (hin : st.inOverall = false) :
    parseStep st (jstr "## Design Lab Feedback") = st := by
  simp only [parseStep,
    show targetCapture (jstr "## Design Lab Feedback") = none from by decide,
    show variantHeadingMatch (jstr "## Design Lab Feedback") = none from by decide]
  rw [if_neg (by decide),
    if_neg (fun hand => by rw [hin] at hand; exact Bool.noConfusion hand.1)]

/-- A star-headed line that does not match the target pattern leaves the
state unchanged (its `*` head excludes it from overall collection). -/
theorem parseStep_star_nontarget (st : ParseState) (t : JSStr)
    (h : targetCapture ('*' :: t) = none) : parseStep st ('*' :: t) = st := by
  simp only [parseStep, h, variantHeadingMatch_none_of_head '*' t (by decide)]
  rw [if_neg (overallHeading_ne_of_head '*' t (by decide)),
    if_neg (fun hand => hand.2.2 (by simp [List.isPrefixOf]))]

theorem parseStep_dashes (st : ParseState) : parseStep st (jstr "---") = st := by
  simp only [parseStep, show targetCapture (jstr "---") = none from by decide,
    show variantHeadingMatch (jstr "---") = none from by decide]
  rw [if_neg (by decide), if_neg (fun hand => hand.2.1 (by decide))]

theorem parseStep_variantHeading (v : VariantId) (st : ParseState) :
    parseStep st (jstr "### Variant " ++ v.str) =
      { st with currentVariant := some v, inOverall := false } := by
  have hcap : targetCapture (jstr "### Variant " ++ v.str) = none := by
    cases v <;> decide
  have hvar : variantHeadingMatch (jstr "### Variant " ++ v.str) = some v := by
    cases v <;> decide
  simp only [parseStep, hcap, hvar]

theorem parseStep_overallHeading (st : ParseState) :
    parseStep st (jstr "### Overall Direction") =
      { st with inOverall := true, currentVariant := none } := by
  simp only [parseStep,
    show targetCapture (jstr "### Overall Direction") = none from by decide,
    show variantHeadingMatch (jstr "### Overall Direction") = none from by decide]
  rw [if_pos trivial]

theorem parseStep_collect (st : ParseState) (l : JSStr) (hin : st.inOverall = true)
    (h1 : ¬ (jstr "---").isPrefixOf l) (h2 : ¬ (jstr "*").isPrefixOf l)
    (h3 : variantHeadingMatch l = none) (h4 : l ≠ jstr "### Overall Direction") :
    parseStep st l = { st with overallLines := st.overallLines ++ [l] } := by
  simp only [parseStep, targetCapture_none_of_notStar l h2, h3]
  rw [if_neg h4, if_pos ⟨by rw [hin], h1, h2⟩]

theorem targetLine_capture (target : JSStr) (hdot : target.all isRegexDot = true)
    (htr : jsTrim target = target) :
    ∃ cap, targetCapture (jstr "**Target:** " ++ target) = some cap ∧
      jsTrim cap = target := by
  by_cases ht : target = []
  · subst ht
    exact ⟨[' '], by decide, by decide⟩
  · have hpre : (jstr "**Target:**").isPrefixOf (jstr "**Target:**" ++ (' ' :: target)) =
        true := List.isPrefixOf_iff_prefix.mpr ⟨' ' :: target, rfl⟩
    have hdrop : (jstr "**Target:**" ++ (' ' :: target)).drop
        (jstr "**Target:**").length = ' ' :: target := List.drop_left _ _
    have hdw : target.dropWhile isJsWs = target := dropWhile_of_trimFix target htr
    refine ⟨target, ?_, htr⟩
    rw [show jstr "**Target:** " ++ target = jstr "**Target:**" ++ (' ' :: target) from rfl]
    simp only [targetCapture, hpre, if_true, hdrop,
      List.dropWhile_cons_of_pos (show isJsWs ' ' = true from by decide), hdw]
    rw [if_neg ht, if_pos hdot]

theorem parseStep_targetLine (st : ParseState) (target : JSStr)
    (hdot : target.all isRegexDot = true) (htr : jsTrim target = target) :
    parseStep st (jstr "**Target:** " ++ target) = { st with target := some target } := by
  obtain ⟨cap, hcap, htrim⟩ := targetLine_capture target hdot htr
  simp only [parseStep, hcap, htrim]

theorem foldl_parseStep_skip (ls : List JSStr) :
    ∀ st : ParseState, st.inOverall = false →
    (∀ l ∈ ls, l = [] ∨ ∃ c t, l = c :: t ∧ c ≠ '*' ∧ c ≠ '#') →
    List.foldl parseStep st ls = st := by
  induction ls with
  | nil => intro st _ _; rfl
  | cons l ls ih =>
    intro st hin h
    rw [List.foldl_cons]
    rcases h l (by simp) with hl | ⟨c, t, rfl, hc1, hc2⟩
    · subst hl
      rw [parseStep_blank_inactive st hin]
      exact ih st hin (fun x hx => h x (by simp [hx]))
    · rw [parseStep_skip st c t hc1 hc2 hin]
      exact ih st hin (fun x hx => h x (by simp [hx]))

theorem foldl_parseStep_collect (ls : List JSStr) :
    ∀ st : ParseState, st.inOverall = true →
    (∀ l ∈ ls, ¬ (jstr "---").isPrefixOf l ∧ ¬ (jstr "*").isPrefixOf l ∧
      variantHeadingMatch l = none ∧ l ≠ jstr "### Overall Direction") →
    List.foldl parseStep st ls = { st with overallLines := st.overallLines ++ ls } := by
  induction ls with
  | nil => intro st _ _; simp
  | cons l ls ih =>
    intro st hin h
    obtain ⟨h1, h2, h3, h4⟩ := h l (by simp)
    rw [List.foldl_cons, parseStep_collect st l hin h1 h2 h3 h4,
      ih { st with overallLines := st.overallLines ++ [l] } hin
        (fun x hx => h x (by simp [hx]))]
    simp

theorem natDigitsF_digits : ∀ (fuel n : ℕ), ∀ ch ∈ natDigitsF fuel n,
    isAsciiDigit ch = true := by
  intro fuel
  induction fuel with
  | zero => intro n ch hch; simp [natDigitsF] at hch
  | succ fuel ih =>
    intro n ch hch
    rw [natDigitsF] at hch
    split at hch
    · rw [List.mem_singleton] at hch
      subst hch
      exact digitChar_isDigit n
    · rcases List.mem_append.mp hch with h | h
      · exact ih (n / 10) ch h
      · rw [List.mem_singleton] at h
        subst h
        exact digitChar_isDigit _

theorem natDigits_digits (n : ℕ) : ∀ ch ∈ natDigits n, isAsciiDigit ch = true :=
  natDigitsF_digits (n + 1) n

theorem splitOnF_chars (c : Char) (sr : List Char) :
    ∀ (fuel : ℕ) (s : JSStr), ∀ fr ∈ splitOnF c sr fuel s, ∀ ch ∈ fr, ch ∈ s := by
  intro fuel
  induction fuel with
  | zero =>
    intro s fr hfr ch hch
    rw [splitOnF] at hfr
    rw [List.mem_singleton] at hfr
    subst hfr
    simp at hch
  | succ fuel ih =>
    intro s fr hfr ch hch
    cases s with
    | nil =>
      rw [splitOnF, List.mem_singleton] at hfr
      subst hfr
      simp at hch
    | cons d rest =>
      rw [splitOnF] at hfr
      by_cases hcond : d = c ∧ sr.isPrefixOf rest
      · rw [if_pos hcond] at hfr
        rcases List.mem_cons.mp hfr with hfr' | hfr'
        · subst hfr'; simp at hch
        · have := ih (rest.drop sr.length) fr hfr' ch hch
          exact List.mem_cons.mpr (Or.inr (List.drop_subset _ rest this))
      · rw [if_neg hcond] at hfr
        rcases hsp : splitOnF c sr fuel rest with _ | ⟨h1, t1⟩
        · rw [hsp] at hfr
          simp only [List.mem_singleton] at hfr
          subst hfr
          rw [List.mem_singleton] at hch
          subst hch
          exact List.mem_cons_self _ _
        · rw [hsp] at hfr
          rcases List.mem_cons.mp hfr with hfr' | hfr'
          · subst hfr'
            rcases List.mem_cons.mp hch with hch' | hch'
            · subst hch'; exact List.mem_cons_self _ _
            · exact List.mem_cons.mpr (Or.inr
                (ih rest h1 (by rw [hsp]; exact List.mem_cons_self _ _) ch hch'))
          · exact List.mem_cons.mpr (Or.inr
              (ih rest fr (by rw [hsp]; exact List.mem_cons.mpr (Or.inr hfr')) ch hch))

theorem getLastD_mem_of_ne (l : List JSStr) (h : l ≠ []) : l.getLastD [] ∈ l := by
  rw [List.getLastD_eq_getLast?]
  cases hg : l.getLast? with
  | none =>
    rw [List.getLast?_eq_none_iff] at hg
    exact absurd hg h
  | some x =>
    simp only [Option.getD_some]
    obtain ⟨hne, hx⟩ := List.mem_getLast?_eq_getLast
      (show x ∈ l.getLast? from by simp [Option.mem_def, hg])
    rw [hx]
    exact List.getLast_mem hne

theorem lastPathSegment_chars (rp : JSStr) : ∀ ch ∈ lastPathSegment rp, ch ∈ rp := by
  intro ch hch
  rw [lastPathSegment] at hch
  rcases hsp : splitOnNE ' ' ['>', ' '] rp with _ | ⟨h1, t1⟩
  · rw [hsp] at hch
    simp [List.getLastD] at hch
  · rw [hsp] at hch
    have hmem : (h1 :: t1).getLastD [] ∈ h1 :: t1 :=
      getLastD_mem_of_ne (h1 :: t1) (by simp)
    exact splitOnF_chars ' ' ['>', ' '] (rp.length + 1) rp ((h1 :: t1).getLastD [])
      (by rw [show splitOnF ' ' ['>', ' '] (rp.length + 1) rp =
          splitOnNE ' ' ['>', ' '] rp from rfl, hsp]
          exact hmem) ch hch

theorem mem_enumFrom_snd (l : List Comment) :
    ∀ (n : ℕ) (q : ℕ × Comment), q ∈ List.enumFrom n l → q.2 ∈ l := by
  induction l with
  | nil => intro n q hq; simp [List.enumFrom] at hq
  | cons a l ih =>
    intro n q hq
    rw [List.enumFrom] at hq
    rcases List.mem_cons.mp hq with h | h
    · subst h; simp
    · exact List.mem_cons.mpr (Or.inr (ih (n + 1) q h))

theorem mem_enum_snd (l : List Comment) (q : ℕ × Comment) (h : q ∈ l.enum) : q.2 ∈ l :=
  mem_enumFrom_snd l 0 q h

theorem noNL_append (x y : JSStr) (hx : ∀ ch ∈ x, ch ≠ '\n')
    (hy : ∀ ch ∈ y, ch ≠ '\n') : ∀ ch ∈ x ++ y, ch ≠ '\n' := by
  intro ch hch
  rcases List.mem_append.mp hch with h | h
  · exact hx ch h
  · exact hy ch h

theorem digit_ne_star_hash (d : Char) (h : isAsciiDigit d = true) :
    d ≠ '*' ∧ d ≠ '#' :=
  ⟨fun heq => by subst heq; exact absurd h (by decide),
   fun heq => by subst heq; exact absurd h (by decide)⟩

/-- The first physical line of a rendered comment entry. -/
def commentLine1 (c : Comment) (i : ℕ) : JSStr :=
  natDigits i ++ jstr ". **" ++ lastPathSegment c.element.readablePath ++ jstr "** (" ++
    (['`'] ++ c.element.selector ++ ['`']) ++
    (if c.element.textContent ≠ [] then
      jstr ", " ++ c.element.tagName ++ jstr " with \"" ++ c.element.textContent ++ jstr "\""
     else []) ++ jstr ")"

/-- The second physical line of a rendered comment entry. -/
def commentLine2 (c : Comment) : JSStr := jstr "   \"" ++ c.text ++ jstr "\""

theorem formatComment_decomp (c : Comment) (i : ℕ) :
    formatComment c i = commentLine1 c i ++ '\n' :: commentLine2 c := by
  rw [formatComment, commentLine1, commentLine2]
  simp [List.append_assoc]

theorem commentLine1_noNL (c : Comment) (i : ℕ)
    (h2 : ∀ ch ∈ c.element.selector, ch ≠ '\n')
    (h3 : ∀ ch ∈ c.element.readablePath, ch ≠ '\n')
    (h4 : ∀ ch ∈ c.element.textContent, ch ≠ '\n')
    (h5 : ∀ ch ∈ c.element.tagName, ch ≠ '\n') :
    ∀ ch ∈ commentLine1 c i, ch ≠ '\n' := by
  intro ch hch heq
  subst heq
  rw [commentLine1] at hch
  have k1 : '\n' ∉ jstr ". **" := by decide
  have k2 : '\n' ∉ jstr "** (" := by decide
  have k3 : '\n' ∉ (['`'] : JSStr) := by decide
  have k4 : '\n' ∉ jstr ")" := by decide
  have k5 : '\n' ∈ natDigits i → False := fun hm =>
    absurd (natDigits_digits i _ hm) (by decide)
  have k6 : '\n' ∈ lastPathSegment c.element.readablePath → False := fun hm =>
    h3 _ (lastPathSegment_chars _ _ hm) rfl
  have k7 : '\n' ∈ c.element.selector → False := fun hm => h2 _ hm rfl
  have k8 : '\n' ∈ (if c.element.textContent ≠ [] then
      jstr ", " ++ c.element.tagName ++ jstr " with \"" ++ c.element.textContent ++
        jstr "\"" else []) → False := by
    split
    · intro hm
      simp only [List.mem_append] at hm
      have m1 : '\n' ∉ jstr ", " := by decide
      have m2 : '\n' ∉ jstr " with \"" := by decide
      have m3 : '\n' ∉ jstr "\"" := by decide
      have m4 : '\n' ∈ c.element.tagName → False := fun hm' => h5 _ hm' rfl
      have m5 : '\n' ∈ c.element.textContent → False := fun hm' => h4 _ hm' rfl
      tauto
    · intro hm
      simp at hm
  simp only [List.mem_append] at hch
  tauto

theorem commentLine2_noNL (c : Comment) (h1 : ∀ ch ∈ c.text, ch ≠ '\n') :
    ∀ ch ∈ commentLine2 c, ch ≠ '\n' := by
  intro ch hch heq
  subst heq
  rw [commentLine2] at hch
  have k1 : '\n' ∉ jstr "   \"" := by decide
  have k2 : '\n' ∉ jstr "\"" := by decide
  have k3 : '\n' ∈ c.text → False := fun hm => h1 _ hm rfl
  simp only [List.mem_append] at hch
  tauto

theorem commentLine1_head (c : Comment) (i : ℕ) :
    ∃ d tA, commentLine1 c i = d :: tA ∧ isAsciiDigit d = true := by
  obtain ⟨d, t0, hnd, hdig⟩ := natDigits_head i
  refine ⟨d, ?_, ?_, hdig⟩
  · exact t0 ++ (jstr ". **" ++ lastPathSegment c.element.readablePath ++ jstr "** (" ++
      (['`'] ++ c.element.selector ++ ['`']) ++
      (if c.element.textContent ≠ [] then
        jstr ", " ++ c.element.tagName ++ jstr " with \"" ++ c.element.textContent ++
          jstr "\"" else []) ++ jstr ")")
  · rw [commentLine1, hnd]
    simp [List.append_assoc]

theorem commentLine2_head (c : Comment) :
    commentLine2 c = ' ' :: (jstr "  \"" ++ (c.text ++ jstr "\"")) := by
  rw [commentLine2]
  rfl

theorem splitChar_formatComment (c : Comment) (i : ℕ)
    (h1 : ∀ ch ∈ c.text, ch ≠ '\n') (h2 : ∀ ch ∈ c.element.selector, ch ≠ '\n')
    (h3 : ∀ ch ∈ c.element.readablePath, ch ≠ '\n')
    (h4 : ∀ ch ∈ c.element.textContent, ch ≠ '\n')
    (h5 : ∀ ch ∈ c.element.tagName, ch ≠ '\n') :
    ∃ d tA tB, splitChar '\n' (formatComment c i) = [d :: tA, ' ' :: tB] ∧
      isAsciiDigit d = true := by
  obtain ⟨d, tA, hA, hdig⟩ := commentLine1_head c i
  refine ⟨d, tA, jstr "  \"" ++ (c.text ++ jstr "\""), ?_, hdig⟩
  rw [formatComment_decomp, splitChar_append,
    splitChar_no_sep '\n' (commentLine1 c i) (commentLine1_noNL c i h2 h3 h4 h5),
    splitChar_no_sep '\n' (commentLine2 c) (commentLine2_noNL c h1),
    hA, commentLine2_head]
  rfl

abbrev commentFieldsNoNL (c : Comment) : Prop :=
  (∀ ch ∈ c.text, ch ≠ '\n') ∧ (∀ ch ∈ c.element.selector, ch ≠ '\n') ∧
  (∀ ch ∈ c.element.readablePath, ch ≠ '\n') ∧
  (∀ ch ∈ c.element.textContent, ch ≠ '\n') ∧ (∀ ch ∈ c.element.tagName, ch ≠ '\n')

theorem splitChar_variantHeading (v : VariantId) :
    splitChar '\n' (jstr "### Variant " ++ v.str) = [jstr "### Variant " ++ v.str] := by
  cases v <;> decide

theorem entryPhys_skip (cs : List Comment)
    (hf : ∀ c ∈ cs, commentFieldsNoNL c) :
    ∀ l ∈ ((cs.enum.flatMap fun q => [formatComment q.2 (q.1 + 1), []]).flatMap
      (splitChar '\n')), l = [] ∨ ∃ c t, l = c :: t ∧ c ≠ '*' ∧ c ≠ '#' := by
  intro l hl
  rcases List.mem_flatMap.mp hl with ⟨x, hx, hlx⟩
  rcases List.mem_flatMap.mp hx with ⟨q, hq, hxq⟩
  have hcf := hf q.2 (mem_enum_snd cs q hq)
  rcases List.mem_cons.mp hxq with hxq' | hxq'
  · subst hxq'
    obtain ⟨d, tA, tB, hsp, hdig⟩ := splitChar_formatComment q.2 (q.1 + 1)
      hcf.1 hcf.2.1 hcf.2.2.1 hcf.2.2.2.1 hcf.2.2.2.2
    rw [hsp] at hlx
    rcases List.mem_cons.mp hlx with h | h
    · subst h
      obtain ⟨hd1, hd2⟩ := digit_ne_star_hash d hdig
      exact Or.inr ⟨d, tA, rfl, hd1, hd2⟩
    · rw [List.mem_singleton] at h
      subst h
      exact Or.inr ⟨' ', tB, rfl, by decide, by decide⟩
  · rw [List.mem_singleton] at hxq'
    subst hxq'
    rw [show splitChar '\n' ([] : JSStr) = [[]] from rfl] at hlx
    rw [List.mem_singleton] at hlx
    subst hlx
    exact Or.inl rfl

theorem foldl_sections (groups : List (VariantId × List Comment))
    (hf : ∀ p ∈ groups, ∀ c ∈ p.2, commentFieldsNoNL c) :
    ∀ (tg : Option JSStr) (cv0 : Option VariantId) (ol : List JSStr),
    ∃ cv, List.foldl parseStep ⟨tg, cv0, false, ol⟩
      ((groups.flatMap fun p => (jstr "### Variant " ++ p.1.str) ::
        p.2.enum.flatMap fun q => [formatComment q.2 (q.1 + 1), []]).flatMap
        (splitChar '\n')) = ⟨tg, cv, false, ol⟩ := by
  induction groups with
  | nil => intro tg cv0 ol; exact ⟨cv0, rfl⟩
  | cons p groups' ih =>
    intro tg cv0 ol
    obtain ⟨v, cs⟩ := p
    rw [List.flatMap_cons, List.flatMap_append, List.flatMap_cons,
      splitChar_variantHeading]
    simp only [List.cons_append, List.nil_append, List.append_assoc]
    rw [List.foldl_cons, parseStep_variantHeading v _, List.foldl_append]
    rw [foldl_parseStep_skip _ ⟨tg, some v, false, ol⟩ rfl
      (entryPhys_skip cs (hf (v, cs) (by simp)))]
    exact ih (fun p hp c hc => hf p (by simp [hp]) c hc) tg (some v) ol

theorem isRegexDot_ne_nl (c : Char) (h : isRegexDot c = true) : c ≠ '\n' := by
  intro heq
  subst heq
  exact absurd h (by decide)

theorem intercalate_append_singleton (sep : JSStr) (L : List JSStr) (x : JSStr)
    (h : L ≠ []) :
    List.intercalate sep (L ++ [x]) = List.intercalate sep L ++ sep ++ x := by
  induction L with
  | nil => exact absurd rfl h
  | cons a L ih =>
    cases L with
    | nil => simp [List.intercalate, List.intersperse]
    | cons b m =>
      rw [List.cons_append, intercalate_cons_ne sep a ((b :: m) ++ [x]) (by simp),
        ih (by simp), intercalate_cons_ne sep a (b :: m) (by simp)]
      simp [List.append_assoc]

/-- Round trip of `target` and `overall` through the generated report
(C2, amended): provided the comment fields carry no newline, the target
has no surrounding whitespace and only `.`-matchable characters, and the
trimmed overall text is non-empty with no line that starts with `*` or
`---`, is a variant heading, or is the overall heading — the parse of the
formatted report returns exactly the given target and the trimmed
overall. -/
theorem roundTrip_targetOverall (cs : List Comment) (target overall : JSStr)
    (hcf : ∀ c ∈ cs, commentFieldsNoNL c)
    (hdot : target.all isRegexDot = true)
    (htr : jsTrim target = target)
    (hone : jsTrim overall ≠ [])
    (hov : ∀ l ∈ splitChar '\n' (jsTrim overall),
      ¬ (jstr "---").isPrefixOf l ∧ ¬ (jstr "*").isPrefixOf l ∧
      variantHeadingMatch l = none ∧ l ≠ jstr "### Overall Direction") :
    (parseFeedbackMarkdown (formatAsMarkdown cs target overall)).target = some target ∧
    (parseFeedbackMarkdown (formatAsMarkdown cs target overall)).overall =
      jsTrim overall := by
  have hsplitTL : splitChar '\n' (jstr "**Target:** " ++ target) =
      [jstr "**Target:** " ++ target] :=
    splitChar_no_sep _ _ (noNL_append _ _ (by decide)
      (fun ch hch => isRegexDot_ne_nl ch (List.all_eq_true.mp hdot ch hch)))
  have hsplitCL : splitChar '\n' (jstr "**Comments:** " ++ natDigits cs.length) =
      [jstr "**Comments:** " ++ natDigits cs.length] :=
    splitChar_no_sep _ _ (noNL_append _ _ (by decide)
      (fun ch hch heq => by
        subst heq
        exact absurd (natDigits_digits _ _ hch) (by decide)))
  have hgroups : ∀ p ∈ groupByVariant cs, ∀ c ∈ p.2, commentFieldsNoNL c := by
    intro p hp c hc
    rw [groupByVariant_eq] at hp
    rcases List.mem_filterMap.mp hp with ⟨v, hv, heq⟩
    rcases Option.map_eq_some'.mp heq with ⟨f, hf1, hf2⟩
    rw [variantFilter] at hf1
    split at hf1
    · exact Option.noConfusion hf1
    · have hpf : p.2 = cs.filter (fun c => c.variant == v) := by
        rw [← hf2, Option.some_inj.mp hf1]
      rw [hpf] at hc
      exact hcf c (List.mem_of_mem_filter hc)
  -- the list of physical lines, region by region
  have hlines : splitOnNE '\n' [] (formatAsMarkdown cs target overall) =
      (formatAsMarkdownLines cs target overall).flatMap (splitChar '\n') := by
    rw [formatAsMarkdown, splitOnNE_single, splitChar_intercalate_flat]
    rw [formatAsMarkdownLines]
    simp
  have hlog : formatAsMarkdownLines cs target overall =
      ([jstr "## Design Lab Feedback", [], jstr "**Target:** " ++ target,
        jstr "**Comments:** " ++ natDigits cs.length, []] ++
       ((groupByVariant cs).flatMap fun p => (jstr "### Variant " ++ p.1.str) ::
         p.2.enum.flatMap fun q => [formatComment q.2 (q.1 + 1), []]) ++
       [jstr "### Overall Direction", jsTrim overall, []] ++
       [jstr "---", jstr "*Feedback from Design Lab interactive overlay*"]) := by
    rw [formatAsMarkdownLines]
    rw [if_pos hone]
  rw [parseFeedbackMarkdown]
  rw [hlines, hlog]
  simp only [List.flatMap_append]
  rw [List.foldl_append, List.foldl_append, List.foldl_append]
  -- header region
  have hA1 : List.foldl parseStep ⟨none, none, false, []⟩
      (([jstr "## Design Lab Feedback", [], jstr "**Target:** " ++ target,
        jstr "**Comments:** " ++ natDigits cs.length, []]).flatMap (splitChar '\n')) =
      ⟨some target, none, false, []⟩ := by
    simp only [List.flatMap_cons, List.flatMap_nil,
      show splitChar '\n' (jstr "## Design Lab Feedback") =
        [jstr "## Design Lab Feedback"] from by decide,
      show splitChar '\n' ([] : JSStr) = [[]] from rfl, hsplitTL, hsplitCL]
    simp only [List.cons_append, List.nil_append, List.append_nil]
    rw [List.foldl_cons, parseStep_title _ rfl,
      List.foldl_cons, parseStep_blank_inactive _ rfl,
      List.foldl_cons, parseStep_targetLine _ target hdot htr,
      List.foldl_cons,
      show jstr "**Comments:** " ++ natDigits cs.length =
        '*' :: (jstr "*Comments:** " ++ natDigits cs.length) from rfl,
      parseStep_star_nontarget _ (jstr "*Comments:** " ++ natDigits cs.length)
        (targetCapture_none_of_not_pfx _
          (not_isPrefixOf_append (jstr "**Target:**") (jstr "**Comments:** ")
            (natDigits cs.length) (by decide) (by decide))),
      List.foldl_cons, parseStep_blank_inactive _ rfl, List.foldl_nil]
  rw [hA1]
  -- section region
  obtain ⟨cv, hA2⟩ := foldl_sections (groupByVariant cs) hgroups (some target) none []
  rw [hA2]
  -- overall region
  have hA3 : List.foldl parseStep ⟨some target, cv, false, []⟩
      (([jstr "### Overall Direction", jsTrim overall, []]).flatMap (splitChar '\n')) =
      ⟨some target, none, true, splitChar '\n' (jsTrim overall) ++ [[]]⟩ := by
    simp only [List.flatMap_cons, List.flatMap_nil,
      show splitChar '\n' (jstr "### Overall Direction") =
        [jstr "### Overall Direction"] from by decide,
      show splitChar '\n' ([] : JSStr) = [[]] from rfl]
    simp only [List.cons_append, List.nil_append, List.append_nil]
    rw [List.foldl_cons, parseStep_overallHeading]
    rw [List.foldl_append,
      foldl_parseStep_collect (splitChar '\n' (jsTrim overall))
        ⟨some target, none, true, []⟩ rfl hov]
    rw [List.foldl_cons, parseStep_collect _ [] rfl (by decide) (by decide)
      (by decide) (by decide), List.foldl_nil]
    simp
  rw [hA3]
  -- footer region
  have hA4 : List.foldl parseStep
      ⟨some target, none, true, splitChar '\n' (jsTrim overall) ++ [[]]⟩
      (([jstr "---", jstr "*Feedback from Design Lab interactive overlay*"]).flatMap
        (splitChar '\n')) =
      ⟨some target, none, true, splitChar '\n' (jsTrim overall) ++ [[]]⟩ := by
    simp only [List.flatMap_cons, List.flatMap_nil,
      show splitChar '\n' (jstr "---") = [jstr "---"] from by decide,
      show splitChar '\n' (jstr "*Feedback from Design Lab interactive overlay*") =
        [jstr "*Feedback from Design Lab interactive overlay*"] from by decide]
    simp only [List.cons_append, List.nil_append, List.append_nil]
    rw [List.foldl_cons, parseStep_dashes,
      List.foldl_cons,
      show jstr "*Feedback from Design Lab interactive overlay*" =
        '*' :: jstr "Feedback from Design Lab interactive overlay*" from rfl,
      parseStep_star_nontarget _ (jstr "Feedback from Design Lab interactive overlay*")
        (by decide), List.foldl_nil]
  rw [hA4]
  refine ⟨rfl, ?_⟩
  show jsTrim (List.intercalate ['\n'] (splitChar '\n' (jsTrim overall) ++ [[]])) =
    jsTrim overall
  rw [intercalate_append_singleton ['\n'] _ [] (splitChar_ne_nil '\n' (jsTrim overall)),
    intercalate_splitChar, List.append_nil, jsTrim_append_ws _ '\n' (by decide),
    jsTrim_idem]

/-- Witness for the amended round-trip theorem at a concrete input. -/
theorem roundTrip_targetOverall_witness :
    (∀ c ∈ [cexCommentA], commentFieldsNoNL c) ∧
    (jstr "Widget").all isRegexDot = true ∧
    jsTrim (jstr "Widget") = jstr "Widget" ∧
    jsTrim (jstr "Use B") ≠ [] ∧
    ((parseFeedbackMarkdown (formatAsMarkdown [cexCommentA] (jstr "Widget")
        (jstr "Use B"))).target = some (jstr "Widget") ∧
     (parseFeedbackMarkdown (formatAsMarkdown [cexCommentA] (jstr "Widget")
        (jstr "Use B"))).overall = jsTrim (jstr "Use B")) :=
  ⟨by decide, by decide, by decide, by decide,
   roundTrip_targetOverall [cexCommentA] (jstr "Widget") (jstr "Use B")
     (by decide) (by decide) (by decide) (by decide) (by decide)⟩

/-- C2 counterexample: for `overall = "* hi"` (non-empty after trimming)
the round trip loses the overall text — the parser skips collected lines
that start with `*`, so the reparsed overall is empty, not `"* hi"`. -/
theorem roundTrip_cex :
    jsTrim (jstr "* hi") ≠ [] ∧
    (parseFeedbackMarkdown (formatAsMarkdown [] (jstr "T") (jstr "* hi"))).overall ≠
      jsTrim (jstr "* hi") := by
  constructor
  · decide
  · decide

/-! ## calculateCoordinates (FeedbackOverlay.tsx, lines 322-327)

JS numbers are embedded as rationals; `Math.round` on a finite value is
`⌊x + 1/2⌋` (ties round towards positive infinity), so rounding to one
decimal, `Math.round(x * 10) / 10`, becomes `roundTo1`. -/

structure Rect where
  left : ℚ
  top : ℚ
  width : ℚ
  height : ℚ
deriving DecidableEq, Repr

/-- `Math.round` on a finite JS number. -/
def jsRound (q : ℚ) : ℤ := ⌊q + 1 / 2⌋

/-- `Math.round(q * 10) / 10` — round to one decimal place. -/
def roundTo1 (q : ℚ) : ℚ := (jsRound (q * 10) : ℚ) / 10

/-- `calculateCoordinates(element, variantRoot, clickX, clickY)`; the variant
root's bounding box is passed as the `Rect` it evaluates to. -/
def calculateCoordinates (rootRect : Rect) (clickX clickY : ℚ) : Coordinates :=
  let x := (clickX - rootRect.left) / rootRect.width * 100
  let y := (clickY - rootRect.top) / rootRect.height * 100
  { x := roundTo1 x, y := roundTo1 y }

lemma roundTo1_nonneg (q : ℚ) (h : 0 ≤ q) : 0 ≤ roundTo1 q := by
  unfold roundTo1 jsRound
  have h1 : (0 : ℤ) ≤ ⌊q * 10 + 1 / 2⌋ := by
    apply Int.floor_nonneg.mpr
    nlinarith
  have h2 : (0 : ℚ) ≤ (⌊q * 10 + 1 / 2⌋ : ℤ) := by exact_mod_cast h1
  positivity

lemma roundTo1_le_100 (q : ℚ) (h : q ≤ 100) : roundTo1 q ≤ 100 := by
  unfold roundTo1 jsRound
  have h1 : ⌊q * 10 + 1 / 2⌋ ≤ ⌊(2001 : ℚ) / 2⌋ := by
    apply Int.floor_le_floor
    nlinarith
  have h2 : ⌊(2001 : ℚ) / 2⌋ = 1000 := by
    rw [Int.floor_eq_iff]
    norm_num
  rw [div_le_iff₀ (by norm_num : (0:ℚ) < 10)]
  rw [h2] at h1
  have h3 : ((⌊q * 10 + 1 / 2⌋ : ℤ) : ℚ) ≤ 1000 := by exact_mod_cast h1
  linarith

/-- C5: for a click inside the variant container's bounding box (positive
width and height), `calculateCoordinates` returns
`x = (clickX - rootLeft) / rootWidth * 100` and
`y = (clickY - rootTop) / rootHeight * 100`, each rounded to one decimal
place, and both results lie in `[0, 100]`. -/
theorem calculateCoordinates_spec (r : Rect) (clickX clickY : ℚ)
    (hw : 0 < r.width) (hh : 0 < r.height)
    (hx0 : r.left ≤ clickX) (hx1 : clickX ≤ r.left + r.width)
    (hy0 : r.top ≤ clickY) (hy1 : clickY ≤ r.top + r.height) :
    calculateCoordinates r clickX clickY =
      { x := roundTo1 ((clickX - r.left) / r.width * 100),
        y := roundTo1 ((clickY - r.top) / r.height * 100) } ∧
    0 ≤ (calculateCoordinates r clickX clickY).x ∧
    (calculateCoordinates r clickX clickY).x ≤ 100 ∧
    0 ≤ (calculateCoordinates r clickX clickY).y ∧
    (calculateCoordinates r clickX clickY).y ≤ 100 := by
  have hxlo : 0 ≤ (clickX - r.left) / r.width * 100 := by
    apply mul_nonneg _ (by norm_num)
    exact div_nonneg (by linarith) hw.le
  have hxhi : (clickX - r.left) / r.width * 100 ≤ 100 := by
    have hd : (clickX - r.left) / r.width ≤ 1 :=
      (div_le_one hw).mpr (by linarith)
    nlinarith
  have hylo : 0 ≤ (clickY - r.top) / r.height * 100 := by
    apply mul_nonneg _ (by norm_num)
    exact div_nonneg (by linarith) hh.le
  have hyhi : (clickY - r.top) / r.height * 100 ≤ 100 := by
    have hd : (clickY - r.top) / r.height ≤ 1 :=
      (div_le_one hh).mpr (by linarith)
    nlinarith
  refine ⟨rfl, ?_, ?_, ?_, ?_⟩
  · exact roundTo1_nonneg _ hxlo
  · exact roundTo1_le_100 _ hxhi
  · exact roundTo1_nonneg _ hylo
  · exact roundTo1_le_100 _ hyhi

/-- Witness for the coordinate theorem at a concrete click. -/
theorem calculateCoordinates_spec_witness :
    calculateCoordinates ⟨10, 20, 200, 100⟩ 60 45 =
      { x := roundTo1 ((60 - (10:ℚ)) / 200 * 100),
        y := roundTo1 ((45 - (20:ℚ)) / 100 * 100) } ∧
    0 ≤ (calculateCoordinates ⟨10, 20, 200, 100⟩ 60 45).x ∧
    (calculateCoordinates ⟨10, 20, 200, 100⟩ 60 45).x ≤ 100 ∧
    0 ≤ (calculateCoordinates ⟨10, 20, 200, 100⟩ 60 45).y ∧
    (calculateCoordinates ⟨10, 20, 200, 100⟩ 60 45).y ≤ 100 :=
  calculateCoordinates_spec ⟨10, 20, 200, 100⟩ 60 45 (by norm_num) (by norm_num)
    (by norm_num) (by norm_num) (by norm_num) (by norm_num)

/-! ## DOM model for the selector functions (FeedbackOverlay.tsx, lines 181-253)

An element carries its tag name, `class` attribute, its own text, its other
attributes and its child elements.  JS reference identity of a node inside a
variant container is modelled by the node's path from the container root: the
list of child indices leading to it (`[]` is the root itself).  The `id`
property is the `id` attribute (empty string when absent), exactly as in the
DOM. -/

inductive Elem where
  | mk (tagName className ownText : JSStr) (attrs : List (JSStr × JSStr))
       (children : List Elem)

def Elem.tagName : Elem → JSStr
  | .mk t _ _ _ _ => t

def Elem.className : Elem → JSStr
  | .mk _ c _ _ _ => c

def Elem.ownText : Elem → JSStr
  | .mk _ _ t _ _ => t

def Elem.attrs : Elem → List (JSStr × JSStr)
  | .mk _ _ _ a _ => a

def Elem.children : Elem → List Elem
  | .mk _ _ _ _ cs => cs

/-- `getAttribute`: `none` is JS `null`. -/
def getAttr (e : Elem) (name : JSStr) : Option JSStr :=
  (e.attrs.find? (fun a => a.1 == name)).map (fun a => a.2)

/-- `element.id`: the `id` attribute, or the empty string when absent. -/
def Elem.idAttr (e : Elem) : JSStr := (getAttr e (jstr "id")).getD []

/-- Collapse a JS string option to its truthy value: `some v` with `v`
non-empty survives, `null` and `""` are falsy. -/
def optTruthy : Option JSStr → Option JSStr
  | some v => if v.isEmpty then none else some v
  | none => none

/-- The node of `root` at a path of child indices (`[]` is `root`). -/
def getNode : List ℕ → Elem → Option Elem
  | [], e => some e
  | i :: rest, e =>
    match e.children.get? i with
    | some c => getNode rest c
    | none => none

mutual
/-- All proper descendants of an element, in document order — the node list
`querySelectorAll` runs over (the root itself is excluded). -/
def descendants : Elem → List Elem
  | .mk _ _ _ _ cs => descList cs

def descList : List Elem → List Elem
  | [] => []
  | c :: rest => c :: (descendants c ++ descList rest)
end

/-- A compound class selector `.t1.t2...` matches an element whose `class`
attribute, split on whitespace, contains every token. -/
def matchesTokens (tokens : List JSStr) (e : Elem) : Bool :=
  tokens.all (fun t => (splitWs e.className).contains t)

/-- `variantRoot.querySelectorAll(classSelector).length` for the compound
selector built from `tokens`. -/
def querySelectorAllCount (root : Elem) (tokens : List JSStr) : ℕ :=
  (descendants root).countP (matchesTokens tokens)

/-- One segment of the structural path for a node at child index `i` of
`parent`: the lowercased tag, with an `:nth-child(k)` suffix when the parent
has more than one child of the same tag, where `k` is the node's 1-based
position among those same-tag siblings (`siblings.indexOf(current) + 1`). -/
def pathSeg (parent child : Elem) (i : ℕ) : JSStr :=
  let siblings := parent.children.filter (fun c => c.tagName == child.tagName)
  let tag := toLowerJS child.tagName
  if siblings.length == 1 then tag
  else
    let index := (parent.children.take i).countP (fun c => c.tagName == child.tagName) + 1
    tag ++ jstr ":nth-child(" ++ natDigits index ++ jstr ")"

/-- The `while` loop of `generateStructuralPath`, walking the reversed path
from the element up towards the root, prepending one segment per level and
stopping once four segments have been collected. -/
def structGo (root : Elem) : List ℕ → List JSStr → List JSStr
  | [], acc => acc
  | i :: rest, acc =>
    match getNode rest.reverse root with
    | none => acc
    | some parent =>
      match parent.children.get? i with
      | none => acc
      | some child =>
        let acc2 := pathSeg parent child i :: acc
        if 4 ≤ acc2.length then acc2
        else structGo root rest acc2

/-- `generateStructuralPath(element, variantRoot)` for the node of `root` at
path `p`. -/
def generateStructuralPath (root : Elem) (p : List ℕ) : JSStr :=
  List.intercalate (jstr " > ") (structGo root p.reverse [])

/-- The `data-testid`/`data-cy` branch of `generateSelector`. -/
def selTestId (e : Elem) : Option JSStr :=
  match optTruthy (getAttr e (jstr "data-testid")) with
  | some v => some (jstr "[data-testid=\"" ++ v ++ jstr "\"]")
  | none =>
    match optTruthy (getAttr e (jstr "data-cy")) with
    | some v => some (jstr "[data-testid=\"" ++ v ++ jstr "\"]")
    | none => none

/-- The `#id` branch: a truthy id that is not a generated class name and does
not start with `:`. -/
def selId (e : Elem) : Option JSStr :=
  let id := e.idAttr
  if id.isEmpty then none
  else if isCssInJsClass id then none
  else if id.head? == some ':' then none
  else some ('#' :: id)

/-- The `tag[aria-label="…"]` branch. -/
def selAria (e : Elem) : Option JSStr :=
  match optTruthy (getAttr e (jstr "aria-label")) with
  | some v => some (toLowerJS e.tagName ++ jstr "[aria-label=\"" ++ v ++ jstr "\"]")
  | none => none

/-- The `tag[role="…"]` branch, skipping the generic roles. -/
def selRole (e : Elem) : Option JSStr :=
  match optTruthy (getAttr e (jstr "role")) with
  | some r =>
    if r == jstr "generic" || r == jstr "presentation" || r == jstr "none" then none
    else
      let tag := toLowerJS e.tagName
      match optTruthy (getAttr e (jstr "name")) with
      | some n =>
        some (tag ++ jstr "[role=\"" ++ r ++ jstr "\"][name=\"" ++ n ++ jstr "\"]")
      | none => some (tag ++ jstr "[role=\"" ++ r ++ jstr "\"]")
  | none => none

/-- The class-selector branch: the first two meaningful class tokens; when
the compound selector matches more than one element under the variant root,
it is qualified once with the parent's first meaningful class.  The DOM's
`parent !== variantRoot` test holds exactly when the path has length at
least two. -/
def selClass (root : Elem) (p : List ℕ) (e : Elem) : Option JSStr :=
  let meaningful := filterClasses e.className
  if meaningful.isEmpty then none
  else
    let toks := (splitWs meaningful).take 2
    let classSelector := (toks.map (fun c => '.' :: c)).flatten
    if querySelectorAllCount root toks == 1 then some classSelector
    else if 2 ≤ p.length then
      match getNode p.dropLast root with
      | some parent =>
        let parentClasses := filterClasses parent.className
        if parentClasses.isEmpty then some classSelector
        else
          let parentSelector :=
            (((splitWs parentClasses).take 1).map (fun c => '.' :: c)).flatten
          some (parentSelector ++ jstr " > " ++ classSelector)
      | none => some classSelector
    else some classSelector

/-- The `input`/`button`/`select` name/type fallback branch. -/
def selForm (e : Elem) : Option JSStr :=
  let tag := toLowerJS e.tagName
  if tag == jstr "input" || tag == jstr "button" || tag == jstr "select" then
    match optTruthy (getAttr e (jstr "name")) with
    | some n => some (tag ++ jstr "[name=\"" ++ n ++ jstr "\"]")
    | none =>
      match optTruthy (getAttr e (jstr "type")) with
      | some t => some (tag ++ jstr "[type=\"" ++ t ++ jstr "\"]")
      | none => none
  else none

/-- `generateSelector(element, variantRoot)` for the node of `root` at path
`p`: the first applicable branch wins, falling back to the structural path. -/
def generateSelector (root : Elem) (p : List ℕ) : JSStr :=
  match getNode p root with
  | none => []
  | some element =>
    match selTestId element with
    | some s => s
    | none =>
      match selId element with
      | some s => s
      | none =>
        match selAria element with
        | some s => s
        | none =>
          match selRole element with
          | some s => s
          | none =>
            match selClass root p element with
            | some s => s
            | none =>
              match selForm element with
              | some s => s
              | none => generateStructuralPath root p

lemma app_ne_of_left (a b : JSStr) (ha : a ≠ []) : a ++ b ≠ [] := by
  intro h
  exact ha (List.append_eq_nil.mp h).1

lemma app_ne_of_right (a b : JSStr) (hb : b ≠ []) : a ++ b ≠ [] := by
  intro h
  exact hb (List.append_eq_nil.mp h).2

lemma toLowerJS_ne (s : JSStr) (h : s ≠ []) : toLowerJS s ≠ [] := by
  intro hc
  exact h (List.map_eq_nil_iff.mp hc)

lemma getNode_snoc (q : List ℕ) (i : ℕ) : ∀ root : Elem,
    getNode (q ++ [i]) root = (getNode q root).bind (fun e => e.children.get? i) := by
  induction q with
  | nil =>
    intro root
    have hr : (getNode [] root).bind (fun e => e.children.get? i) =
        root.children.get? i := rfl
    rw [List.nil_append, hr]
    unfold getNode
    cases h : root.children.get? i with
    | some c => rfl
    | none => rfl
  | cons j rest ih =>
    intro root
    show getNode (j :: (rest ++ [i])) root = _
    simp only [getNode]
    cases h : root.children.get? j with
    | some c => exact ih c
    | none => rfl

lemma intercalate_ne_nil_of_good (sep : JSStr) (hsep : sep ≠ []) (L : List JSStr)
    (hL : L ≠ []) (hmem : ∀ s ∈ L, s ≠ []) : List.intercalate sep L ≠ [] := by
  cases L with
  | nil => exact absurd rfl hL
  | cons a rest =>
    cases rest with
    | nil => simpa [List.intercalate] using hmem a (by simp)
    | cons b m =>
      rw [intercalate_cons_ne sep a (b :: m) (by simp)]
      intro h
      exact hsep (List.append_eq_nil.mp (List.append_eq_nil.mp h).1).2

lemma pathSeg_ne (parent child : Elem) (i : ℕ) (htag : child.tagName ≠ []) :
    pathSeg parent child i ≠ [] := by
  unfold pathSeg
  by_cases h : (parent.children.filter (fun c => c.tagName == child.tagName)).length == 1
  · simpa [h] using toLowerJS_ne _ htag
  · simp only [h, Bool.false_eq_true, if_false]
    apply app_ne_of_right
    decide

lemma structGo_ne (root : Elem) (p : List ℕ)
    (htags : ∀ k, k < p.length →
      (getNode (p.take (k + 1)) root).map Elem.tagName ≠ some []) :
    ∀ rp acc, rp.reverse <+: p → (getNode rp.reverse root).isSome = true →
      (∀ s ∈ acc, s ≠ []) →
      (∀ s ∈ structGo root rp acc, s ≠ []) ∧
      (structGo root rp acc = [] → rp = [] ∧ acc = []) := by
  intro rp
  induction rp with
  | nil =>
    intro acc _ _ hacc
    exact ⟨by simpa [structGo] using hacc,
      fun h => ⟨rfl, by simpa [structGo] using h⟩⟩
  | cons i rest ih =>
    intro acc hpre hval hacc
    have hrev : (i :: rest).reverse = rest.reverse ++ [i] := by simp
    rw [hrev, getNode_snoc] at hval
    cases hpar : getNode rest.reverse root with
    | none => rw [hpar] at hval; simp at hval
    | some parent =>
      rw [hpar] at hval
      simp only [Option.some_bind] at hval
      cases hchild : parent.children.get? i with
      | none => rw [hchild] at hval; simp at hval
      | some child =>
        -- the current node is the child, at the prefix `(i :: rest).reverse`
        have hnode : getNode ((i :: rest).reverse) root = some child := by
          rw [hrev, getNode_snoc, hpar]
          simp only [Option.some_bind]
          exact hchild
        have hqlen : ((i :: rest).reverse).length = rest.length + 1 := by simp
        have hk : rest.length < p.length := by
          have hle := hpre.length_le
          rw [hqlen] at hle
          omega
        have hq_take : (i :: rest).reverse = p.take (rest.length + 1) := by
          have := List.prefix_iff_eq_take.mp hpre
          rwa [hqlen] at this
        have htag : child.tagName ≠ [] := by
          intro hc
          apply htags rest.length hk
          rw [← hq_take, hnode]
          show some child.tagName = some []
          rw [hc]
        have hseg : pathSeg parent child i ≠ [] := pathSeg_ne parent child i htag
        have hstep : structGo root (i :: rest) acc =
            (if 4 ≤ (pathSeg parent child i :: acc).length
             then pathSeg parent child i :: acc
             else structGo root rest (pathSeg parent child i :: acc)) := by
          simp only [structGo, hpar, hchild]
        have hacc2 : ∀ s ∈ pathSeg parent child i :: acc, s ≠ [] := by
          intro s hs
          rcases List.mem_cons.mp hs with h | h
          · subst h; exact hseg
          · exact hacc s h
        by_cases hfour : 4 ≤ (pathSeg parent child i :: acc).length
        · rw [hstep, if_pos hfour]
          exact ⟨hacc2, fun h => absurd h (by simp)⟩
        · rw [hstep, if_neg hfour]
          have hpre2 : rest.reverse <+: p :=
            (List.prefix_append rest.reverse [i]).trans (hrev ▸ hpre)
          have hval2 : (getNode rest.reverse root).isSome = true := by
            rw [hpar]; rfl
          have hrec := ih (pathSeg parent child i :: acc) hpre2 hval2 hacc2
          refine ⟨hrec.1, fun h => ?_⟩
          exact absurd (hrec.2 h).2 (by simp)

lemma generateStructuralPath_ne (root : Elem) (p : List ℕ) (hp : p ≠ [])
    (hval : (getNode p root).isSome = true)
    (htags : ∀ k, k < p.length →
      (getNode (p.take (k + 1)) root).map Elem.tagName ≠ some []) :
    generateStructuralPath root p ≠ [] := by
  have h := structGo_ne root p htags p.reverse []
    (by rw [List.reverse_reverse]) (by rwa [List.reverse_reverse]) (by simp)
  unfold generateStructuralPath
  apply intercalate_ne_nil_of_good _ (by decide) _ _ h.1
  intro hc
  have := (h.2 hc).1
  exact hp (by simpa using congrArg List.reverse this)

lemma selTestId_ne (e : Elem) (s : JSStr) (h : selTestId e = some s) : s ≠ [] := by
  unfold selTestId at h
  cases h1 : optTruthy (getAttr e (jstr "data-testid")) with
  | some v =>
    simp only [h1, Option.some.injEq] at h
    subst h
    exact app_ne_of_left _ _ (app_ne_of_left _ _ (by decide))
  | none =>
    rw [h1] at h
    cases h2 : optTruthy (getAttr e (jstr "data-cy")) with
    | some v =>
      simp only [h2, Option.some.injEq] at h
      subst h
      exact app_ne_of_left _ _ (app_ne_of_left _ _ (by decide))
    | none =>
      rw [h2] at h
      exact Option.noConfusion h

lemma selId_ne (e : Elem) (s : JSStr) (h : selId e = some s) : s ≠ [] := by
  simp only [selId] at h
  split_ifs at h with h1 h2 h3
  injection h with h
  subst h
  exact List.cons_ne_nil _ _

lemma selAria_ne (e : Elem) (s : JSStr) (h : selAria e = some s) : s ≠ [] := by
  unfold selAria at h
  cases h1 : optTruthy (getAttr e (jstr "aria-label")) with
  | some v =>
    simp only [h1, Option.some.injEq] at h
    subst h
    exact app_ne_of_right _ _ (by decide)
  | none =>
    rw [h1] at h
    exact Option.noConfusion h


lemma selRole_ne (e : Elem) (s : JSStr) (h : selRole e = some s) : s ≠ [] := by
  unfold selRole at h
  cases h1 : optTruthy (getAttr e (jstr "role")) with
  | none =>
    rw [h1] at h
    exact Option.noConfusion h
  | some r =>
    simp only [h1] at h
    by_cases h2 : (r == jstr "generic" || r == jstr "presentation" ||
        r == jstr "none") = true
    · rw [if_pos h2] at h
      exact Option.noConfusion h
    · rw [if_neg h2] at h
      cases h3 : optTruthy (getAttr e (jstr "name")) with
      | some n =>
        simp only [h3, Option.some.injEq] at h
        subst h
        exact app_ne_of_right _ _ (by decide)
      | none =>
        simp only [h3, Option.some.injEq] at h
        subst h
        exact app_ne_of_right _ _ (by decide)

lemma selForm_ne (e : Elem) (s : JSStr) (h : selForm e = some s) : s ≠ [] := by
  simp only [selForm] at h
  by_cases h1 : (toLowerJS e.tagName == jstr "input" ||
      toLowerJS e.tagName == jstr "button" || toLowerJS e.tagName == jstr "select") = true
  · rw [if_pos h1] at h
    cases h2 : optTruthy (getAttr e (jstr "name")) with
    | some n =>
      simp only [h2, Option.some.injEq] at h
      subst h
      exact app_ne_of_right _ _ (by decide)
    | none =>
      simp only [h2] at h
      cases h3 : optTruthy (getAttr e (jstr "type")) with
      | some t =>
        simp only [h3, Option.some.injEq] at h
        subst h
        exact app_ne_of_right _ _ (by decide)
      | none =>
        rw [h3] at h
        exact Option.noConfusion h
  · rw [if_neg h1] at h
    exact Option.noConfusion h

lemma selClass_ne (root : Elem) (p : List ℕ) (e : Elem) (s : JSStr)
    (h : selClass root p e = some s) : s ≠ [] := by
  simp only [selClass] at h
  by_cases hm : (filterClasses e.className).isEmpty = true
  · rw [if_pos hm] at h
    exact Option.noConfusion h
  · rw [if_neg hm] at h
    have hm' : filterClasses e.className ≠ [] := by
      intro hc
      apply hm
      rw [hc]
      rfl
    have hsne : e.className ≠ [] := by
      intro hc
      apply hm'
      rw [hc]
      rfl
    have hfil : (splitWs e.className).filter (fun cls => ! isCssInJsClass cls) ≠ [] := by
      intro hc
      apply hm'
      rw [filterClasses, if_neg hsne, hc]
      rfl
    have htoks : splitWs (filterClasses e.className) =
        (splitWs e.className).filter (fun cls => ! isCssInJsClass cls) :=
      splitWs_filterClasses _ hsne
    have hcsne : (((splitWs (filterClasses e.className)).take 2).map
        (fun c => '.' :: c)).flatten ≠ [] := by
      rw [htoks]
      cases hfc : (splitWs e.className).filter (fun cls => ! isCssInJsClass cls) with
      | nil => exact absurd hfc hfil
      | cons a rest =>
        simp only [List.take, List.map, List.flatten]
        exact List.cons_ne_nil _ _
    by_cases hq : (querySelectorAllCount root
        ((splitWs (filterClasses e.className)).take 2) == 1) = true
    · rw [if_pos hq] at h
      injection h with h
      subst h
      exact hcsne
    · rw [if_neg hq] at h
      by_cases hp2 : 2 ≤ p.length
      · rw [if_pos hp2] at h
        cases hpar : getNode p.dropLast root with
        | some parent =>
          simp only [hpar] at h
          by_cases hpc : (filterClasses parent.className).isEmpty = true
          · rw [if_pos hpc] at h
            injection h with h
            subst h
            exact hcsne
          · rw [if_neg hpc] at h
            injection h with h
            subst h
            exact app_ne_of_right _ _ hcsne
        | none =>
          simp only [hpar] at h
          injection h with h
          subst h
          exact hcsne
      · rw [if_neg hp2] at h
        injection h with h
        subst h
        exact hcsne

/-- C3 (amended): for every element that is a proper descendant of the
variant container (a non-empty path whose nodes all carry non-empty tag
names), `generateSelector` returns a non-empty string, and — the embedding
being a pure function of the container and the path — resolving the same
unchanged DOM twice yields identical strings.  The original claim also
covered the container element itself, which is refuted by
`generateSelector_root_cex`. -/
theorem generateSelector_spec (root : Elem) (p : List ℕ) (e : Elem)
    (he : getNode p root = some e) (hp : p ≠ [])
    (htags : ∀ k, k < p.length →
      (getNode (p.take (k + 1)) root).map Elem.tagName ≠ some []) :
    generateSelector root p ≠ [] ∧
    generateSelector root p = generateSelector root p := by
  refine ⟨?_, rfl⟩
  unfold generateSelector
  rw [he]
  simp only []
  cases h1 : selTestId e with
  | some s => exact selTestId_ne e s h1
  | none =>
  cases h2 : selId e with
  | some s => exact selId_ne e s h2
  | none =>
  cases h3 : selAria e with
  | some s => exact selAria_ne e s h3
  | none =>
  cases h4 : selRole e with
  | some s => exact selRole_ne e s h4
  | none =>
  cases h5 : selClass root p e with
  | some s => exact selClass_ne root p e s h5
  | none =>
  cases h6 : selForm e with
  | some s => exact selForm_ne e s h6
  | none =>
    exact generateStructuralPath_ne root p hp (by rw [he]; rfl) htags

def w3span : Elem := .mk (jstr "span") [] [] [] []

def w3root : Elem := .mk (jstr "div") [] [] [(jstr "data-variant", jstr "A")] [w3span]

/-- Witness for the amended selector theorem: the lone `span` child of a
variant container resolves to the non-empty structural selector. -/
theorem generateSelector_spec_witness :
    getNode [0] w3root = some w3span ∧ ([0] : List ℕ) ≠ [] ∧
    (∀ k, k < ([0] : List ℕ).length →
      (getNode (([0] : List ℕ).take (k + 1)) w3root).map Elem.tagName ≠ some []) ∧
    (generateSelector w3root [0] ≠ [] ∧
     generateSelector w3root [0] = generateSelector w3root [0]) :=
  ⟨rfl, by decide, by decide,
   generateSelector_spec w3root [0] w3span rfl (by decide) (by decide)⟩

def cexVariantRoot : Elem := .mk (jstr "div") [] [] [(jstr "data-variant", jstr "A")] []

/-- C3 counterexample: on the variant container element itself (a bare
`div[data-variant="A"]` with no id, classes or other attributes) the
resolver walks no levels and returns the empty string. -/
theorem generateSelector_root_cex :
    getNode [] cexVariantRoot = some cexVariantRoot ∧
    generateSelector cexVariantRoot [] = [] :=
  ⟨rfl, by decide⟩

lemma space_free_app_inj (u v : JSStr) : ∀ a b : JSStr,
    (∀ c ∈ a, c ≠ ' ') → (∀ c ∈ b, c ≠ ' ') →
    a ++ ' ' :: u = b ++ ' ' :: v → a = b := by
  intro a
  induction a with
  | nil =>
    intro b _ hb h
    cases b with
    | nil => rfl
    | cons d bs =>
      injection h with h1 h2
      exact absurd h1.symm (hb d (by simp))
  | cons c as ih =>
    intro b ha hb h
    cases b with
    | nil =>
      injection h with h1 h2
      exact absurd h1 (ha c (by simp))
    | cons d bs =>
      injection h with h1 h2
      rw [h1, ih bs (fun x hx => ha x (by simp [hx])) (fun x hx => hb x (by simp [hx])) h2]

/-- Under the hypotheses of the parent-qualification scenario, the selector
of the node at `p` is the parent's first meaningful class followed by
` > ` and the element's two-token class selector. -/
lemma generateSelector_classQualified (root : Elem) (p : List ℕ) (e par : Elem)
    (he : getNode p root = some e)
    (h1 : selTestId e = none) (h2 : selId e = none)
    (h3 : selAria e = none) (h4 : selRole e = none)
    (hm : filterClasses e.className ≠ [])
    (hq : querySelectorAllCount root ((splitWs (filterClasses e.className)).take 2) ≠ 1)
    (hp2 : 2 ≤ p.length)
    (hpar : getNode p.dropLast root = some par)
    (hpc : filterClasses par.className ≠ []) :
    generateSelector root p =
      ((((splitWs (filterClasses par.className)).take 1).map (fun c => '.' :: c)).flatten)
        ++ jstr " > " ++
      ((((splitWs (filterClasses e.className)).take 2).map (fun c => '.' :: c)).flatten) := by
  have hsel : selClass root p e =
      some (((((splitWs (filterClasses par.className)).take 1).map
          (fun c => '.' :: c)).flatten)
        ++ jstr " > " ++
        ((((splitWs (filterClasses e.className)).take 2).map
          (fun c => '.' :: c)).flatten)) := by
    simp only [selClass]
    rw [if_neg (by simpa [List.isEmpty_iff] using hm)]
    rw [if_neg (by simpa using hq)]
    rw [if_pos hp2]
    simp only [hpar]
    rw [if_neg (by simpa [List.isEmpty_iff] using hpc)]
  unfold generateSelector
  rw [he]
  simp only [h1, h2, h3, h4, hsel]

/-- C4 (amended): two distinct elements of one variant container that both
take the class-selector branch with an ambiguous compound selector are
qualified by their parents' first meaningful class, so whenever those first
parent class tokens differ, the two resulting selectors differ.  When the
parents share that token the qualified selectors coincide, which refutes the
original claim (`generateSelector_shared_parent_cex`). -/
theorem generateSelector_disambiguation (root : Elem) (p q : List ℕ)
    (ep eq2 parp parq : Elem)
    (hep : getNode p root = some ep) (heq : getNode q root = some eq2)
    (h1p : selTestId ep = none) (h2p : selId ep = none) (h3p : selAria ep = none)
    (h4p : selRole ep = none)
    (h1q : selTestId eq2 = none) (h2q : selId eq2 = none) (h3q : selAria eq2 = none)
    (h4q : selRole eq2 = none)
    (hmp : filterClasses ep.className ≠ []) (hmq : filterClasses eq2.className ≠ [])
    (hqp : querySelectorAllCount root ((splitWs (filterClasses ep.className)).take 2) ≠ 1)
    (hqq : querySelectorAllCount root ((splitWs (filterClasses eq2.className)).take 2) ≠ 1)
    (hp2 : 2 ≤ p.length) (hq2 : 2 ≤ q.length)
    (hparp : getNode p.dropLast root = some parp)
    (hparq : getNode q.dropLast root = some parq)
    (hpcp : filterClasses parp.className ≠ [])
    (hpcq : filterClasses parq.className ≠ [])
    (tp tq : JSStr)
    (htp : (splitWs (filterClasses parp.className)).head? = some tp)
    (htq : (splitWs (filterClasses parq.className)).head? = some tq)
    (hne : tp ≠ tq) :
    generateSelector root p ≠ generateSelector root q := by
  obtain ⟨restp, hrp⟩ : ∃ r, splitWs (filterClasses parp.className) = tp :: r := by
    cases hsw : splitWs (filterClasses parp.className) with
    | nil => rw [hsw] at htp; cases htp
    | cons a r =>
      rw [hsw] at htp
      injection htp with htp
      exact ⟨r, by rw [htp]⟩
  obtain ⟨restq, hrq⟩ : ∃ r, splitWs (filterClasses parq.className) = tq :: r := by
    cases hsw : splitWs (filterClasses parq.className) with
    | nil => rw [hsw] at htq; cases htq
    | cons a r =>
      rw [hsw] at htq
      injection htq with htq
      exact ⟨r, by rw [htq]⟩
  have hwsp : ∀ c ∈ tp, c ≠ ' ' := by
    intro c hc hsp
    have := (splitWs_sound (filterClasses parp.className) tp
      (by rw [hrp]; exact List.mem_cons_self _ _)).2 c hc
    rw [hsp] at this
    exact absurd this (by decide)
  have hwsq : ∀ c ∈ tq, c ≠ ' ' := by
    intro c hc hsp
    have := (splitWs_sound (filterClasses parq.className) tq
      (by rw [hrq]; exact List.mem_cons_self _ _)).2 c hc
    rw [hsp] at this
    exact absurd this (by decide)
  rw [generateSelector_classQualified root p ep parp hep h1p h2p h3p h4p hmp hqp
      hp2 hparp hpcp,
    generateSelector_classQualified root q eq2 parq heq h1q h2q h3q h4q hmq hqq
      hq2 hparq hpcq, hrp, hrq]
  simp only [List.take, List.map, List.flatten, List.append_nil]
  intro hcontra
  rw [show jstr " > " = ' ' :: jstr "> " from rfl] at hcontra
  rw [List.append_assoc, List.append_assoc, List.cons_append, List.cons_append]
    at hcontra
  injection hcontra with hc1 hc2
  exact hne (space_free_app_inj _ _ tp tq hwsp hwsq hc2)

def c4card : Elem := .mk (jstr "div") (jstr "card nice") [] [] []

def c4left : Elem := .mk (jstr "div") (jstr "left") [] [] [c4card]

def c4right : Elem := .mk (jstr "div") (jstr "right") [] [] [c4card]

def c4root : Elem :=
  .mk (jstr "div") [] [] [(jstr "data-variant", jstr "A")] [c4left, c4right]

/-- Witness for the amended disambiguation theorem: two `.card.nice`
elements under `.left` and `.right` parents get distinct selectors. -/
theorem generateSelector_disambiguation_witness :
    generateSelector c4root [0, 0] ≠ generateSelector c4root [1, 0] :=
  generateSelector_disambiguation c4root [0, 0] [1, 0] c4card c4card c4left c4right
    rfl rfl (by decide) (by decide) (by decide) (by decide)
    (by decide) (by decide) (by decide) (by decide)
    (by decide) (by decide) (by decide) (by decide)
    (by decide) (by decide) rfl rfl (by decide) (by decide)
    (jstr "left") (jstr "right") (by decide) (by decide) (by decide)

def c4wrap : Elem := .mk (jstr "div") (jstr "wrap") [] [] [c4card, c4card]

def c4root2 : Elem :=
  .mk (jstr "div") [] [] [(jstr "data-variant", jstr "A")] [c4wrap]

/-- C4 counterexample: two distinct sibling elements sharing the same two
leading class tokens under the same `.wrap` parent both resolve through the
class branch (the compound selector matches both), yet parent qualification
produces the identical selector `.wrap > .card.nice` for both of them. -/
theorem generateSelector_shared_parent_cex :
    ([0, 0] : List ℕ) ≠ [0, 1] ∧
    getNode [0, 0] c4root2 = some c4card ∧
    getNode [0, 1] c4root2 = some c4card ∧
    filterClasses c4card.className ≠ [] ∧
    querySelectorAllCount c4root2
      ((splitWs (filterClasses c4card.className)).take 2) = 2 ∧
    generateSelector c4root2 [0, 0] = generateSelector c4root2 [0, 1] :=
  ⟨by decide, rfl, rfl, by decide, by decide, by decide⟩

/-! ## Store hydration (FeedbackOverlay.tsx, lines 722-750)

The lazy `useState` initializer reads the storage key, parses it as JSON and
takes `data.comments || []` and `data.overallDirection || ''`; any exception
(unparsable JSON, or the `TypeError` thrown by a property access on a `null`
parse result) is caught and yields the default state.  `JSON.parse` itself
is abstract here: it is any function returning `none` exactly when it would
throw. -/

inductive Json where
  | null
  | bool (b : Bool)
  | num (q : ℚ)
  | str (s : JSStr)
  | arr (xs : List Json)
  | obj (fields : List (JSStr × Json))

/-- JS truthiness of a JSON value. -/
def jsonTruthy : Json → Bool
  | .null => false
  | .bool b => b
  | .num q => !(q == 0)
  | .str s => !s.isEmpty
  | .arr _ => true
  | .obj _ => true

/-- Property access `data.key` on a parsed JSON value: a field of an object
(last occurrence wins, as in `JSON.parse`), `undefined` (`none`) on any
non-null non-object.  Access on `null` throws and is handled separately. -/
def objGet (j : Json) (key : JSStr) : Option Json :=
  match j with
  | .obj fields => (fields.reverse.find? (fun f => f.1 == key)).map (fun f => f.2)
  | _ => none

/-- The two hydrated fields of the initial state; the remaining fields of
`defaultState` are constants not touched by the initializer. -/
structure HydratedStore where
  comments : Json
  overallDirection : Json

/-- The `defaultState` projection: no comments, empty overall direction. -/
def defaultHydrated : HydratedStore := { comments := .arr [], overallDirection := .str [] }

/-- The lazy initializer: absent or empty-string storage, a parse failure, or
a `null` parse result (whose property access throws a caught `TypeError`)
hydrate the default; otherwise each field falls back to its default when the
stored field is missing or falsy. -/
def hydrateStore (parse : JSStr → Option Json) (saved : Option JSStr) : HydratedStore :=
  match saved with
  | none => defaultHydrated
  | some s =>
    if s.isEmpty then defaultHydrated
    else
      match parse s with
      | none => defaultHydrated
      | some .null => defaultHydrated
      | some data =>
        { comments :=
            match objGet data (jstr "comments") with
            | some v => if jsonTruthy v then v else .arr []
            | none => .arr [],
          overallDirection :=
            match objGet data (jstr "overallDirection") with
            | some v => if jsonTruthy v then v else .str []
            | none => .str [] }

/-- C8: store hydration never fails — absent storage, unparsable JSON, a
`null` parse result, and missing `comments`/`overallDirection` fields all
hydrate the empty store (empty comment list, empty overall direction)
instead of raising an error. -/
theorem hydrateStore_spec (parse : JSStr → Option Json) (saved : Option JSStr) :
    (saved = none → hydrateStore parse saved = defaultHydrated) ∧
    (∀ s, saved = some s → parse s = none →
      hydrateStore parse saved = defaultHydrated) ∧
    (∀ s, saved = some s → parse s = some .null →
      hydrateStore parse saved = defaultHydrated) ∧
    (∀ s data, saved = some s → parse s = some data →
      objGet data (jstr "comments") = none →
      (hydrateStore parse saved).comments = Json.arr []) ∧
    (∀ s data, saved = some s → parse s = some data →
      objGet data (jstr "overallDirection") = none →
      (hydrateStore parse saved).overallDirection = Json.str []) := by
  refine ⟨?_, ?_, ?_, ?_, ?_⟩
  · intro h
    rw [h]
    rfl
  · intro s hs hp
    rw [hs]
    unfold hydrateStore
    simp only []
    by_cases he : s.isEmpty = true
    · rw [if_pos he]
    · rw [if_neg he, hp]
  · intro s hs hp
    rw [hs]
    unfold hydrateStore
    simp only []
    by_cases he : s.isEmpty = true
    · rw [if_pos he]
    · rw [if_neg he, hp]
  · intro s data hs hp hmiss
    rw [hs]
    unfold hydrateStore
    simp only []
    by_cases he : s.isEmpty = true
    · rw [if_pos he]
      rfl
    · rw [if_neg he, hp]
      cases data with
      | null => rfl
      | bool b => simp only [hmiss]
      | num q => simp only [hmiss]
      | str s2 => simp only [hmiss]
      | arr xs => simp only [hmiss]
      | obj fields => simp only [hmiss]
  · intro s data hs hp hmiss
    rw [hs]
    unfold hydrateStore
    simp only []
    by_cases he : s.isEmpty = true
    · rw [if_pos he]
      rfl
    · rw [if_neg he, hp]
      cases data with
      | null => rfl
      | bool b => simp only [hmiss]
      | num q => simp only [hmiss]
      | str s2 => simp only [hmiss]
      | arr xs => simp only [hmiss]
      | obj fields => simp only [hmiss]

/-- Witness for the hydration theorem: a stored `"{}"` parsing to the empty
object misses both fields and hydrates the defaults, and an unparsable
store hydrates the whole default state. -/
theorem hydrateStore_spec_witness :
    ((fun t => if t == jstr "\x7b\x7d" then some (Json.obj []) else none)
        (jstr "\x7b\x7d") = some (Json.obj []) ∧
      objGet (Json.obj []) (jstr "comments") = none ∧
      (hydrateStore (fun t => if t == jstr "\x7b\x7d" then some (Json.obj []) else none)
        (some (jstr "\x7b\x7d"))).comments = Json.arr []) ∧
    ((fun _ => (none : Option Json)) (jstr "oops") = none ∧
      hydrateStore (fun _ => none) (some (jstr "oops")) = defaultHydrated) :=
  ⟨⟨rfl, rfl,
    (hydrateStore_spec
        (fun t => if t == jstr "\x7b\x7d" then some (Json.obj []) else none)
        (some (jstr "\x7b\x7d"))).2.2.2.1
      (jstr "\x7b\x7d") (Json.obj []) rfl rfl rfl⟩,
   ⟨rfl,
    (hydrateStore_spec (fun _ => none) (some (jstr "oops"))).2.1
      (jstr "oops") rfl rfl⟩⟩

/-! ## Element identification (FeedbackOverlay.tsx, lines 255-347) -/

mutual
/-- `element.textContent`: the element's own text followed by its
descendants' text, in document order. -/
def textContent : Elem → JSStr
  | .mk _ _ t _ cs => t ++ textList cs

def textList : List Elem → JSStr
  | [] => []
  | c :: rest => textContent c ++ textList rest
end

/-- `getTextContent(element)` with the default `maxLength = 50`. -/
def getTextContent (element : Elem) : JSStr :=
  let text := jsTrim (textContent element)
  if text.length ≤ 50 then text else text.take 47 ++ jstr "..."

/-- `getRelevantAttributes`: keep `data-*`, `aria-*`, `id`, `role`, `type`
and `name` attributes. -/
def getRelevantAttributes (element : Elem) : List (JSStr × JSStr) :=
  element.attrs.filter (fun a =>
    (jstr "data-").isPrefixOf a.1 || (jstr "aria-").isPrefixOf a.1 ||
    a.1 == jstr "id" || a.1 == jstr "role" || a.1 == jstr "type" ||
    a.1 == jstr "name")

/-- The `tagLabels` lookup table. -/
def tagLabels : List (JSStr × JSStr) :=
  [(jstr "div", jstr "Container"), (jstr "section", jstr "Section"),
   (jstr "article", jstr "Article"), (jstr "nav", jstr "Navigation"),
   (jstr "header", jstr "Header"), (jstr "footer", jstr "Footer"),
   (jstr "main", jstr "Main"), (jstr "aside", jstr "Sidebar"),
   (jstr "form", jstr "Form"), (jstr "ul", jstr "List"),
   (jstr "ol", jstr "Numbered List"), (jstr "li", jstr "List Item"),
   (jstr "button", jstr "Button"), (jstr "a", jstr "Link"),
   (jstr "input", jstr "Input"), (jstr "select", jstr "Dropdown"),
   (jstr "textarea", jstr "Text Area"), (jstr "img", jstr "Image"),
   (jstr "span", jstr "Text"), (jstr "p", jstr "Paragraph")]

/-- `capitalizeTag`: the friendly label, or the tag with its first letter
upper-cased. -/
def capitalizeTag (tag : JSStr) : JSStr :=
  match (tagLabels.find? (fun f => f.1 == tag)).map (fun f => f.2) with
  | some l => l
  | none =>
    match tag with
    | [] => []
    | c :: rest => c.toUpper :: rest

/-- The `/([a-z])([A-Z])/g → '$1 $2'` camel-case splitting pass. -/
def camelSplit : JSStr → JSStr
  | [] => []
  | [c] => [c]
  | a :: b :: rest =>
    if ('a' ≤ a && a ≤ 'z') && ('A' ≤ b && b ≤ 'Z') then
      a :: ' ' :: camelSplit (b :: rest)
    else a :: camelSplit (b :: rest)

def isWordChar (c : Char) : Bool := isAlnum c || c == '_'

/-- The `/\b\w/g` pass: upper-case every word character not preceded by a
word character; the flag records whether the previous character was one. -/
def upWordStarts : JSStr → Bool → JSStr
  | [], _ => []
  | c :: rest, prevWord =>
    (if isWordChar c && !prevWord then c.toUpper else c) ::
      upWordStarts rest (isWordChar c)

/-- `formatClassName`: dashes and underscores to spaces, split camel case,
then title-case the word starts. -/
def formatClassName (className : JSStr) : JSStr :=
  upWordStarts
    (camelSplit (className.map (fun c => if c == '-' || c == '_' then ' ' else c)))
    false

/-- The `/^h[1-6]$/` heading test. -/
def isH16 (tag : JSStr) : Bool :=
  match tag with
  | ['h', c] => '1' ≤ c && c ≤ '6'
  | _ => false

/-- `getElementLabel`: aria-label, labelled button/link or heading text,
input name/placeholder, first meaningful class, or the capitalized tag. -/
def getElementLabel (element : Elem) : JSStr :=
  let tag := toLowerJS element.tagName
  match optTruthy (getAttr element (jstr "aria-label")) with
  | some v => v
  | none =>
    let btnText :=
      if tag == jstr "button" || tag == jstr "a" then
        let text := (jsTrim (textContent element)).take 30
        if text.isEmpty then none
        else some (capitalizeTag tag ++ jstr ": \"" ++ text ++ jstr "\"")
      else none
    match btnText with
    | some v => v
    | none =>
      let inputName :=
        if tag == jstr "input" || tag == jstr "select" || tag == jstr "textarea" then
          match optTruthy (getAttr element (jstr "name")) with
          | some n => some (capitalizeTag tag ++ jstr ": " ++ n)
          | none =>
            match optTruthy (getAttr element (jstr "placeholder")) with
            | some n => some (capitalizeTag tag ++ jstr ": " ++ n)
            | none => none
        else none
      match inputName with
      | some v => v
      | none =>
        let headText :=
          if isH16 tag then
            let text := (jsTrim (textContent element)).take 30
            if text.isEmpty then none
            else some (jstr "Heading: \"" ++ text ++ jstr "\"")
          else none
        match headText with
        | some v => v
        | none =>
          let classes := filterClasses element.className
          if !classes.isEmpty then formatClassName ((splitWs classes).headD [])
          else capitalizeTag tag

/-- The ancestor chain from the variant root (exclusive) down to the node at
`p`: the nodes at the non-empty prefixes of `p`, in increasing depth. -/
def pathChain (root : Elem) (p : List ℕ) : List Elem :=
  ((List.range p.length).map (fun k => getNode (p.take (k + 1)) root)).reduceOption

/-- `generateReadablePath(element, variantRoot, variantId)`: `Variant X`
followed by the labels of the last (at most) three chain elements, skipping
falsy labels. -/
def generateReadablePath (root : Elem) (p : List ℕ) (variantId : VariantId) : JSStr :=
  let path := pathChain root p
  let relevantPath := path.drop (path.length - 3)
  let parts := (jstr "Variant " ++ variantId.str) ::
    (relevantPath.map getElementLabel).filter (fun l => !l.isEmpty)
  List.intercalate (jstr " > ") parts

/-- `identifyElement`: the `ElementIdentifier` and coordinates recorded in a
new comment for the node of `root` at `p`; `rootRect` is the variant root's
bounding box read by `calculateCoordinates`. -/
def identifyElement (root : Elem) (p : List ℕ) (variantId : VariantId)
    (clickX clickY : ℚ) (rootRect : Rect) : ElementIdentifier × Coordinates :=
  let element := (getNode p root).getD root
  ({ selector := generateSelector root p,
     readablePath := generateReadablePath root p variantId,
     tagName := toLowerJS element.tagName,
     textContent := getTextContent element,
     className := filterClasses element.className,
     attributes := getRelevantAttributes element },
   calculateCoordinates rootRect clickX clickY)

/-! ## Overlay state model (FeedbackOverlay.tsx, lines 722-1004)

`FeedbackState` mirrors the component's `useState` record; the selected
element is the path of the clicked node inside the click info's variant
root, and the `__feedbackClickInfo` expando property stored on it by
`handleDocumentClick` is modelled as the adjacent `selectedClickInfo` field
(`none` when the property is absent).  `OverlayModel` adds the `copySuccess`
flag and the persistent storage entry under the feedback key. -/

structure ClickInfo where
  root : Elem
  variantId : VariantId
  clickX : ℚ
  clickY : ℚ

structure FeedbackState where
  isActive : Bool
  selectedElement : Option (List ℕ)
  selectedClickInfo : Option ClickInfo
  panelPosition : Option (ℚ × ℚ)
  comments : List Comment
  currentCommentText : JSStr
  overallDirection : JSStr
  showSubmitModal : Bool
  formattedOutput : JSStr

structure OverlayModel where
  state : FeedbackState
  copySuccess : Bool
  storage : Option JSStr

/-- `handleCopyToClipboard` (lines 977-1004): `copyToClipboard` reports
`success` as a boolean (never throwing); `setCopySuccess(success)` is
followed, only on success, by the scheduled callback that removes the
storage key, closes the modal, clears the comments and overall direction,
leaves feedback mode and resets the copy flag.  The model is the state once
that callback (if any) has run. -/
def handleCopyToClipboard (success : Bool) (m : OverlayModel) : OverlayModel :=
  let m1 := { m with copySuccess := success }
  if success then
    { m1 with
      storage := none,
      copySuccess := false,
      state := { m1.state with
        showSubmitModal := false,
        comments := [],
        overallDirection := [],
        isActive := false } }
  else m1

/-- C9: the submit/export step clears the store (comments and overall
direction emptied, storage key removed) and leaves feedback mode only when
the clipboard export reports success; on failure the comments, the overall
direction — indeed the whole state record — and the storage are unchanged. -/
theorem handleCopyToClipboard_spec (m : OverlayModel) :
    ((handleCopyToClipboard true m).state.comments = [] ∧
     (handleCopyToClipboard true m).state.overallDirection = [] ∧
     (handleCopyToClipboard true m).state.isActive = false ∧
     (handleCopyToClipboard true m).state.showSubmitModal = false ∧
     (handleCopyToClipboard true m).storage = none) ∧
    ((handleCopyToClipboard false m).state.comments = m.state.comments ∧
     (handleCopyToClipboard false m).state.overallDirection = m.state.overallDirection ∧
     (handleCopyToClipboard false m).state = m.state ∧
     (handleCopyToClipboard false m).storage = m.storage) :=
  ⟨⟨rfl, rfl, rfl, rfl, rfl⟩, ⟨rfl, rfl, rfl, rfl⟩⟩

/-- `saveComment` (lines 904-937): no-op unless an element is selected, the
pending text is non-empty after trimming, and the element carries click
info; otherwise it appends the identified comment, deselects and clears the
pending text (and the expando click info).  `newId` and `now` stand for
`generateId()` and `Date.now()`, and `rootRect` for the bounding box read
when identifying; the handler itself never touches the storage entry. -/
def saveComment (newId : JSStr) (now : ℤ) (rootRect : Rect)
    (m : OverlayModel) : OverlayModel :=
  match m.state.selectedElement with
  | none => m
  | some p =>
    if (jsTrim m.state.currentCommentText).isEmpty then m
    else
      match m.state.selectedClickInfo with
      | none => m
      | some ci =>
        let identification :=
          identifyElement ci.root p ci.variantId ci.clickX ci.clickY rootRect
        let newComment : Comment :=
          { id := newId,
            variant := ci.variantId,
            element := identification.1,
            coordinates := identification.2,
            text := jsTrim m.state.currentCommentText,
            timestamp := now }
        { m with state := { m.state with
            comments := m.state.comments ++ [newComment],
            selectedElement := none,
            panelPosition := none,
            currentCommentText := [],
            selectedClickInfo := none } }

/-- C10: whenever no element is selected, or the pending comment text trims
to empty, or the selected element carries no click info, `saveComment`
leaves the entire model unchanged — no comment appended, no state field
modified, storage untouched. -/
theorem saveComment_frame (newId : JSStr) (now : ℤ) (rootRect : Rect)
    (m : OverlayModel)
    (h : m.state.selectedElement = none ∨
         jsTrim m.state.currentCommentText = [] ∨
         m.state.selectedClickInfo = none) :
    saveComment newId now rootRect m = m := by
  unfold saveComment
  rcases h with h | h | h
  · rw [h]
  · cases hse : m.state.selectedElement with
    | none => rfl
    | some p =>
      have he : (jsTrim m.state.currentCommentText).isEmpty = true := by
        rw [h]
        rfl
      simp only [he, if_true]
  · cases hse : m.state.selectedElement with
    | none => rfl
    | some p =>
      by_cases he : (jsTrim m.state.currentCommentText).isEmpty = true
      · simp only [he, if_true]
      · simp only [he, if_false, h]
        rfl

def w10state : FeedbackState :=
  { isActive := true,
    selectedElement := none,
    selectedClickInfo := none,
    panelPosition := none,
    comments := [],
    currentCommentText := jstr "pending text",
    overallDirection := jstr "direction",
    showSubmitModal := false,
    formattedOutput := [] }

def w10model : OverlayModel :=
  { state := w10state, copySuccess := false, storage := some (jstr "saved") }

/-- Witness for the save-comment frame theorem: with no element selected the
handler returns the model unchanged. -/
theorem saveComment_frame_witness :
    w10model.state.selectedElement = none ∧
    saveComment (jstr "id-1") 0 ⟨0, 0, 100, 100⟩ w10model = w10model :=
  ⟨rfl, saveComment_frame (jstr "id-1") 0 ⟨0, 0, 100, 100⟩ w10model (Or.inl rfl)⟩
